import Mathlib

/-!
Verification development for the AI clinical-research brief pipeline
(`pipeline.py`).  Python strings are embedded as `List Char`; machine
floats appearing in the scoring code are embedded as real numbers;
timestamps are embedded as epoch seconds (`Int`).  Each stage of the
pipeline (screening, classification retry loop, response validation,
deduplication, sanitization, word limiting, ranking, export) is
translated into an executable Lean definition, and the specified
properties are proved or refuted about those definitions.
-/

namespace ClinicalBrief

/-- Whitespace test for the embedding of Python `str.split`, `str.strip` and
the regex class `\s` (the whitespace characters relevant to this code base:
ASCII whitespace plus the common Unicode space characters). -/
def isPySpace (c : Char) : Bool :=
  c = ' ' || c = '\t' || c = '\n' || c = '\r' || c = '\x0b' || c = '\x0c' ||
  c = '\x85' || c = ' ' || c = ' ' || c = ' ' || c = '　'

/-- Embedding of Python `str.lower`, applied character by character. -/
def pyLower (s : List Char) : List Char :=
  s.map Char.toLower

/-- Embedding of Python `str.strip` on the leading side combined with
`List.reverse` for the trailing side is avoided; instead trailing
whitespace is removed structurally. -/
def dropTrailingWS : List Char → List Char
  | [] => []
  | c :: rest =>
    let r := dropTrailingWS rest
    if r.isEmpty && isPySpace c then [] else c :: r

/-- Embedding of Python `str.strip()` with no arguments. -/
def pyStrip (s : List Char) : List Char :=
  dropTrailingWS (s.dropWhile isPySpace)

/-- Embedding of the Python substring test `needle in hay`: scan the
haystack and test whether the needle starts at some position. -/
def hasSub (needle : List Char) : List Char → Bool
  | [] => needle.isEmpty
  | c :: rest => needle.isPrefixOf (c :: rest) || hasSub needle rest

/-- An article record as built by `fetch_feeds` in `pipeline.py` and
enriched by `identify_ai_content`.  The `pub_date` ISO-8601 string of the
Python dict is embedded by the result of parsing it
(`datetime.fromisoformat` after the `Z` replacement): epoch seconds on
success, `none` when parsing raises. -/
structure Entry where
  id : List Char
  title : List Char
  description : List Char
  link : List Char
  pubDate : Option Int
  isAiRelated : Bool := false
  summary : List Char := []
  aiTag : List Char := []
  deriving DecidableEq

/-- The AI keyword list fixed in `_quick_ai_screening`. -/
def aiKeywords : List (List Char) :=
  ["artificial intelligence", "ai ", " ai", "machine learning", "ml ",
   "deep learning", "neural network", "chatgpt", "gpt-", "llm", "llms",
   "large language model", "foundation model", "generative ai",
   "natural language processing", "nlp", "computer vision",
   "automated", "algorithm", "predictive model", "digital health",
   "smart system", "intelligent system", "computational"].map String.data

/-- The clinical keyword list fixed in `_quick_ai_screening`. -/
def clinicalKeywords : List (List Char) :=
  ["clinical trial", "clinical research", "clinical study", "trial",
   "patient recruitment", "trial design", "trial protocol",
   "clinical investigation", "study protocol", "research study",
   "randomized", "controlled trial", "trial data", "clinical data"].map String.data

/-- The lower-cased concatenation `f"{title} {description}".lower()` that
`_quick_ai_screening` scans. -/
def screeningText (e : Entry) : List Char :=
  pyLower (e.title ++ ' ' :: e.description)

/-- Embedding of `_quick_ai_screening` (stage 1 filter): the entry passes
iff the lower-cased title-plus-description contains some AI keyword and
some clinical keyword as a substring. -/
def quickAiScreening (e : Entry) : Bool :=
  let titleDesc := screeningText e
  let hasAiKeyword := aiKeywords.any fun kw => hasSub kw titleDesc
  let hasClinicalKeyword := clinicalKeywords.any fun kw => hasSub kw titleDesc
  hasAiKeyword && hasClinicalKeyword

/-- Embedding of the deduplication loop at the end of `fetch_feeds`: walk
the collected entries, keeping an entry only when its `link` has not been
seen before. -/
def dedupLoop : List Entry → List (List Char) → List Entry
  | [], _ => []
  | e :: rest, seen =>
    if e.link ∈ seen then dedupLoop rest seen
    else e :: dedupLoop rest (e.link :: seen)

/-- Embedding of the final deduplication performed by `fetch_feeds` on the
merged list of raw entries from all sources. -/
def fetchFeedsDedup (entries : List Entry) : List Entry :=
  dedupLoop entries []

/-- The Boolean substring scan agrees with the infix relation on lists. -/
theorem hasSub_iff (n h : List Char) : hasSub n h = true ↔ n <:+: h := by
  induction h with
  | nil => simp [hasSub, List.infix_nil]
  | cons c rest ih =>
    simp [hasSub, ih, List.isPrefixOf_iff_prefix, List.infix_cons_iff]

/-- C1: the screening stage accepts an entry if and only if the
lower-cased concatenation of its title and description contains at least
one term of the fixed AI keyword list and at least one term of the fixed
clinical keyword list as a substring; in particular an entry matching
only one of the two lists is rejected. -/
theorem C1_screener_accepts_iff (e : Entry) :
    quickAiScreening e = true ↔
      ((∃ kw ∈ aiKeywords, kw <:+: screeningText e) ∧
       (∃ kw ∈ clinicalKeywords, kw <:+: screeningText e)) := by
  simp [quickAiScreening, List.any_eq_true, hasSub_iff]

theorem dedupLoop_filter_of_seen (entries : List Entry) (l : List Char)
    (seen : List (List Char)) (hl : l ∈ seen) :
    (dedupLoop entries seen).filter (fun e => e.link == l) = [] := by
  induction entries generalizing seen with
  | nil => simp [dedupLoop]
  | cons e rest ih =>
    by_cases hmem : e.link ∈ seen
    · simp only [dedupLoop, if_pos hmem]
      exact ih seen hl
    · have hne : (e.link == l) = false := by
        simp only [beq_eq_false_iff_ne, ne_eq]
        intro h; exact hmem (h ▸ hl)
      simp only [dedupLoop, if_neg hmem, List.filter_cons, hne]
      exact ih (e.link :: seen) (List.mem_cons_of_mem _ hl)

theorem dedupLoop_filter_of_not_seen (entries : List Entry) (l : List Char)
    (seen : List (List Char)) (hl : l ∉ seen) :
    (dedupLoop entries seen).filter (fun e => e.link == l) =
      (entries.find? (fun e => e.link == l)).toList := by
  induction entries generalizing seen with
  | nil => simp [dedupLoop]
  | cons e rest ih =>
    by_cases hmem : e.link ∈ seen
    · have hne : (e.link == l) = false := by
        simp only [beq_eq_false_iff_ne, ne_eq]
        intro h; exact hl (h ▸ hmem)
      simp only [dedupLoop, if_pos hmem, List.find?, hne]
      exact ih seen hl
    · simp only [dedupLoop, if_neg hmem, List.filter_cons, List.find?]
      by_cases heq : e.link = l
      · have hbeq : (e.link == l) = true := beq_iff_eq.mpr heq
        simp only [hbeq]
        have : (dedupLoop rest (e.link :: seen)).filter (fun e => e.link == l) = [] :=
          dedupLoop_filter_of_seen rest l (e.link :: seen)
            (heq ▸ List.mem_cons_self _ _)
        simp [this]
      · have hbeq : (e.link == l) = false := by
          simp only [beq_eq_false_iff_ne, ne_eq]; exact heq
        simp only [hbeq]
        exact ih (e.link :: seen) (by
          intro h
          rcases List.mem_cons.mp h with h1 | h2
          · exact heq h1.symm
          · exact hl h2)

/-- C4: for every list of raw entries, the deduplicated list returned by
the collector contains, for every link value, exactly the first entry of
the input carrying that link (so exactly one entry per distinct link, the
first occurrence winning), and no entry for absent links. -/
theorem C4_dedup_first_occurrence (entries : List Entry) (l : List Char) :
    (fetchFeedsDedup entries).filter (fun e => e.link == l) =
      (entries.find? (fun e => e.link == l)).toList :=
  dedupLoop_filter_of_not_seen entries l [] (List.not_mem_nil l)

/-- A Python JSON-decoded value, as produced by `json.loads` inside
`identify_ai_content`. -/
inductive PyVal where
  | pyBool (b : Bool)
  | pyStr (s : List Char)
  | pyInt (n : Int)
  | pyList (xs : List PyVal)
  | pyNone

/-- A Python dict with string keys, embedded as an association list. -/
def PyDict := List (List Char × PyVal)

/-- Embedding of `dict.__getitem__` presence and `dict.get`: the value of
the first matching key, if any. -/
def dictGet (d : PyDict) (k : List Char) : Option PyVal :=
  (List.find? (fun p => p.1 == k) d).map Prod.snd

/-- Python truthiness of a decoded JSON value. -/
def pyTruthy : PyVal → Bool
  | .pyBool b => b
  | .pyStr s => !s.isEmpty
  | .pyInt n => n != 0
  | .pyList xs => !xs.isEmpty
  | .pyNone => false

/-- The per-field text check of `_validate_ai_response`: the value passes
when it is a string whose stripped length is at least 5 (the code tests
`not isinstance(value, str) or len(value.strip()) < 5` and rejects). -/
def isStrLen5 : PyVal → Bool
  | .pyStr s => decide (5 ≤ (pyStrip s).length)
  | _ => false

/-- Embedding of `_validate_ai_response`: iterate over the required
fields `is_ai_related`, `summary`, `ai_tag` in order; a missing field
rejects; `is_ai_related` must be a genuine boolean; `summary` must be a
string of stripped length at least 5; `ai_tag` gets the same check only
when `result.get("is_ai_related", False)` is truthy. -/
def validateAiResponse (result : PyDict) : Bool :=
  match dictGet result "is_ai_related".data with
  | none => false
  | some v1 =>
    match v1 with
    | .pyBool _ =>
      match dictGet result "summary".data with
      | none => false
      | some v2 =>
        if isStrLen5 v2 then
          match dictGet result "ai_tag".data with
          | none => false
          | some v3 =>
            if pyTruthy ((dictGet result "is_ai_related".data).getD (.pyBool false)) then
              isStrLen5 v3
            else true
        else false
    | _ => false

/-- Join a list of decoded string values with newlines (used only by the
claimed validation contract, not by the code). -/
def joinNewlines (xs : List PyVal) : List Char :=
  List.intercalate ['\n'] (xs.map fun v => match v with | .pyStr s => s | _ => [])

/-- The text-field contract exactly as the specification claims it:
a string, or a non-empty list of strings normalized by joining with
newlines, whose trimmed length is at least 5, the length check being
exempted when `exempt` holds (relevance flag false). -/
def specTextFieldOk (exempt : Bool) : PyVal → Bool
  | .pyStr s => exempt || decide (5 ≤ (pyStrip s).length)
  | .pyList xs =>
      (!xs.isEmpty) && xs.all (fun v => match v with | .pyStr _ => true | _ => false) &&
      (exempt || decide (5 ≤ (pyStrip (joinNewlines xs)).length))
  | _ => false

/-- The validation contract exactly as the specification claims it: all
required fields present, genuine boolean relevance flag, and both
required text fields satisfying the claimed text contract with the
length check exempted when the flag is false. -/
def specValidates (result : PyDict) : Bool :=
  match dictGet result "is_ai_related".data,
        dictGet result "summary".data,
        dictGet result "ai_tag".data with
  | some (.pyBool b), some vs, some vt =>
      specTextFieldOk (!b) vs && specTextFieldOk (!b) vt
  | _, _, _ => false

/-- A payload whose summary is a one-element list of strings joining to a
long-enough text: the claimed contract accepts it, the code rejects it. -/
def c3Payload : PyDict :=
  [("is_ai_related".data, .pyBool true),
   ("summary".data, .pyList [.pyStr "a valid summary text".data]),
   ("ai_tag".data, .pyStr "Generative AI".data)]

/-- C3 counterexample: the claimed validation contract and the code
disagree on a concrete payload whose summary is a non-empty list of
strings joining to a long-enough text with the relevance flag true: the
claim accepts it, `_validate_ai_response` rejects it. -/
theorem C3_list_summary_disagreement :
    validateAiResponse c3Payload = false ∧ specValidates c3Payload = true := by
  decide

/-- C3 amended: a payload passes `_validate_ai_response` iff the three
required fields are present, the relevance flag is a genuine boolean,
the summary is a plain string of trimmed length at least 5 regardless of
the flag, and, when the flag is true, the tag is a plain string of
trimmed length at least 5 (for a false flag the tag only has to be
present); lists of strings are never accepted for text fields. -/
theorem C3_validator_characterization (r : PyDict) :
    validateAiResponse r = true ↔
      ((∃ b, dictGet r "is_ai_related".data = some (.pyBool b)) ∧
       (∃ s, dictGet r "summary".data = some (.pyStr s) ∧
          5 ≤ (pyStrip s).length) ∧
       (∃ v, dictGet r "ai_tag".data = some v ∧
          (dictGet r "is_ai_related".data = some (.pyBool true) →
            ∃ t, v = PyVal.pyStr t ∧ 5 ≤ (pyStrip t).length))) := by
  rcases h1 : dictGet r "is_ai_related".data with _ | v1
  · simp [validateAiResponse, h1]
  · rcases v1 with b | s1 | n1 | xs1 | _
    case pyBool =>
      rcases h2 : dictGet r "summary".data with _ | v2
      · simp [validateAiResponse, h1, h2]
      · rcases h3 : dictGet r "ai_tag".data with _ | v3
        · rcases v2 with b2 | s2 | n2 | xs2 | _ <;>
            simp [validateAiResponse, h1, h2, h3, isStrLen5]
        · rcases v2 with b2 | s2 | n2 | xs2 | _ <;>
            [skip; skip; skip; skip; skip] <;>
            rcases v3 with b3 | s3 | n3 | xs3 | _ <;>
            cases b <;>
            simp [validateAiResponse, h1, h2, h3, isStrLen5, pyTruthy]
    all_goals simp [validateAiResponse, h1]

/-- Attach a run character to the runs of the remaining text: when the
following character continued a run, the character joins the first run,
otherwise it opens a new run. -/
def glue (c : Char) (joined : Bool) (ws : List (List Char)) : List (List Char) :=
  if joined then
    match ws with
    | w :: ws2 => (c :: w) :: ws2
    | [] => [[c]]
  else [c] :: ws

/-- Maximal runs of characters satisfying `p`, the shared combinator
behind Python `str.split()` (runs of non-whitespace) and the regex
`\b\w+\b` word scan (runs of word characters). -/
def runsBy (p : Char → Bool) : List Char → List (List Char)
  | [] => []
  | c :: rest =>
    if p c then
      glue c (match rest with | [] => false | d :: _ => p d) (runsBy p rest)
    else runsBy p rest

/-- Embedding of Python `str.split()` with no separator: the maximal
whitespace-free runs, empty pieces discarded. -/
def pyWords (s : List Char) : List (List Char) :=
  runsBy (fun c => !isPySpace c) s

/-- Embedding of `" ".join(words)`. -/
def joinSpace : List (List Char) → List Char
  | [] => []
  | [w] => w
  | w :: w2 :: rest => w ++ ' ' :: joinSpace (w2 :: rest)

/-- Embedding of Python `str.rfind` of a single character: the highest
index at which it occurs, `-1` when absent. -/
def rfindChar (c : Char) (s : List Char) : Int :=
  match (s.reverse).findIdx? (fun d => d == c) with
  | some i => (s.length : Int) - 1 - i
  | none => -1

/-- The test `truncated_text.rstrip().endswith((".", "!", "?"))` from
`_limit_words`. -/
def endsSentencePunct (s : List Char) : Bool :=
  match (dropTrailingWS s).getLast? with
  | some c => c = '.' || c = '!' || c = '?'
  | none => false

/-- Embedding of `_limit_words`: within budget the text is returned
unchanged; otherwise the first `maxWords` words are joined, kept as-is
when ending in sentence punctuation, cut after the last sentence break
when one lies within the final 30 characters, and otherwise suffixed
with an ellipsis. -/
def limitWords (text : List Char) (maxWords : ℕ) : List Char :=
  let ws := pyWords text
  if maxWords < ws.length then
    let truncated := joinSpace (ws.take maxWords)
    if endsSentencePunct truncated then truncated
    else
      let lsb : Int :=
        max (rfindChar '.' truncated)
          (max (rfindChar '!' truncated) (rfindChar '?' truncated))
      if (truncated.length : Int) - 30 < lsb then truncated.take (lsb + 1).toNat
      else truncated ++ "...".data
  else text

/-- Word-start counter: counts the maximal `p`-runs of a string, with a
flag recording whether a run could start at the current position. -/
def wstarts (p : Char → Bool) : Bool → List Char → ℕ
  | _, [] => 0
  | atStart, c :: rest =>
    if p c then (if atStart then 1 else 0) + wstarts p false rest
    else wstarts p true rest

theorem glue_ne_nil (c : Char) (joined : Bool) (ws : List (List Char)) :
    glue c joined ws ≠ [] := by
  cases joined <;> cases ws <;> simp [glue]

theorem runsBy_cons_cons (p : Char → Bool) (c d : Char) (t : List Char) :
    runsBy p (c :: d :: t) =
      if p c then glue c (p d) (runsBy p (d :: t)) else runsBy p (d :: t) := rfl

theorem runsBy_singleton (p : Char → Bool) (c : Char) :
    runsBy p [c] = if p c then [[c]] else [] := rfl

theorem runsBy_cons_neg (p : Char → Bool) (c : Char) (rest : List Char)
    (hc : p c = false) : runsBy p (c :: rest) = runsBy p rest := by
  cases rest with
  | nil => rw [runsBy_singleton, if_neg (by simp [hc])]; rfl
  | cons d t => rw [runsBy_cons_cons, if_neg (by simp [hc])]

theorem runsBy_singleton_pos (p : Char → Bool) (c : Char)
    (hc : p c = true) : runsBy p [c] = [[c]] := by
  rw [runsBy_singleton, if_pos hc]

theorem runsBy_cons_cons_neg (p : Char → Bool) (c d : Char) (t : List Char)
    (hc : p c = true) (hd : p d = false) :
    runsBy p (c :: d :: t) = [c] :: runsBy p (d :: t) := by
  rw [runsBy_cons_cons, if_pos hc, hd]
  rfl

theorem runsBy_cons_cons_pos (p : Char → Bool) (c d : Char) (t : List Char)
    (hc : p c = true) (hd : p d = true) (w : List Char) (ws2 : List (List Char))
    (hw : runsBy p (d :: t) = w :: ws2) :
    runsBy p (c :: d :: t) = (c :: w) :: ws2 := by
  rw [runsBy_cons_cons, if_pos hc, hd, hw]
  rfl

theorem runsBy_ne_nil (p : Char → Bool) (d : Char) (t : List Char)
    (hd : p d = true) : runsBy p (d :: t) ≠ [] := by
  cases t with
  | nil => rw [runsBy_singleton_pos p d hd]; simp
  | cons e t2 =>
    rw [runsBy_cons_cons, if_pos hd]
    exact glue_ne_nil d (p e) (runsBy p (e :: t2))

theorem wstarts_cons_pos (p : Char → Bool) (c : Char) (rest : List Char)
    (b : Bool) (hc : p c = true) :
    wstarts p b (c :: rest) = (if b then 1 else 0) + wstarts p false rest := by
  simp [wstarts, hc]

theorem wstarts_cons_neg (p : Char → Bool) (c : Char) (rest : List Char)
    (b : Bool) (hc : p c = false) :
    wstarts p b (c :: rest) = wstarts p true rest := by
  simp [wstarts, hc]

theorem runsBy_length (p : Char → Bool) (s : List Char) :
    (runsBy p s).length = wstarts p true s := by
  induction s with
  | nil => rfl
  | cons c rest ih =>
    by_cases hc : p c = true
    · cases rest with
      | nil =>
        rw [runsBy_singleton_pos p c hc, wstarts_cons_pos p c [] true hc]
        rfl
      | cons d t =>
        by_cases hd : p d = true
        · rcases hrw : runsBy p (d :: t) with _ | ⟨w, ws2⟩
          · exact absurd hrw (runsBy_ne_nil p d t hd)
          · rw [runsBy_cons_cons_pos p c d t hc hd w ws2 hrw]
            rw [hrw] at ih
            rw [wstarts_cons_pos p c _ true hc,
              wstarts_cons_pos p d t false hd]
            rw [wstarts_cons_pos p d t true hd] at ih
            simp only [List.length_cons, if_true, Bool.false_eq_true, if_false] at ih ⊢
            omega
        · have hd2 : p d = false := by simpa using hd
          rw [runsBy_cons_cons_neg p c d t hc hd2]
          rw [wstarts_cons_pos p c _ true hc,
            wstarts_cons_neg p d t false hd2]
          rw [wstarts_cons_neg p d t true hd2] at ih
          simp only [List.length_cons, ih, if_true]
          omega
    · have hc2 : p c = false := by simpa using hc
      rw [runsBy_cons_neg p c rest hc2, wstarts_cons_neg p c rest true hc2]
      exact ih

theorem runsBy_mem (p : Char → Bool) (s : List Char) (w : List Char)
    (hw : w ∈ runsBy p s) : w ≠ [] ∧ ∀ c ∈ w, p c = true := by
  induction s generalizing w with
  | nil => simp [runsBy] at hw
  | cons c rest ih =>
    by_cases hc : p c = true
    · cases rest with
      | nil =>
        rw [runsBy_singleton_pos p c hc] at hw
        simp only [List.mem_singleton] at hw
        subst hw
        exact ⟨by simp, by intro x hx; simp at hx; exact hx ▸ hc⟩
      | cons d t =>
        by_cases hd : p d = true
        · rcases hrw : runsBy p (d :: t) with _ | ⟨w1, ws2⟩
          · exact absurd hrw (runsBy_ne_nil p d t hd)
          · rw [runsBy_cons_cons_pos p c d t hc hd w1 ws2 hrw] at hw
            rcases List.mem_cons.mp hw with hw | hw
            · subst hw
              have h1 := ih w1 (by rw [hrw]; exact List.mem_cons_self _ _)
              refine ⟨by simp, ?_⟩
              intro x hx
              rcases List.mem_cons.mp hx with hx | hx
              · exact hx ▸ hc
              · exact h1.2 x hx
            · exact ih w (by rw [hrw]; exact List.mem_cons_of_mem _ hw)
        · have hd2 : p d = false := by simpa using hd
          rw [runsBy_cons_cons_neg p c d t hc hd2] at hw
          rcases List.mem_cons.mp hw with hw | hw
          · subst hw
            exact ⟨by simp, by intro x hx; simp at hx; exact hx ▸ hc⟩
          · exact ih w hw
    · have hc2 : p c = false := by simpa using hc
      rw [runsBy_cons_neg p c rest hc2] at hw
      exact ih w hw

theorem wstarts_flag_le (p : Char → Bool) (s : List Char) :
    wstarts p false s ≤ wstarts p true s := by
  cases s with
  | nil => exact le_refl _
  | cons c rest =>
    by_cases hc : p c = true <;> simp [wstarts, hc]

theorem wstarts_append_le (p : Char → Bool) (s1 s2 : List Char) (b : Bool) :
    wstarts p b (s1 ++ s2) ≤ wstarts p b s1 + wstarts p true s2 := by
  induction s1 generalizing b with
  | nil =>
    simp only [List.nil_append, wstarts, Nat.zero_add]
    cases b
    · exact wstarts_flag_le p s2
    · exact le_refl _
  | cons c rest ih =>
    by_cases hc : p c = true
    · rw [List.cons_append, wstarts_cons_pos p c (rest ++ s2) b hc,
        wstarts_cons_pos p c rest b hc]
      have h2 := ih false
      omega
    · have hc2 : p c = false := by simpa using hc
      rw [List.cons_append, wstarts_cons_neg p c (rest ++ s2) b hc2,
        wstarts_cons_neg p c rest b hc2]
      exact ih true

theorem wstarts_of_prefix_le (p : Char → Bool) (s1 s2 : List Char) (b : Bool) :
    wstarts p b s1 ≤ wstarts p b (s1 ++ s2) := by
  induction s1 generalizing b with
  | nil => exact Nat.zero_le _
  | cons c rest ih =>
    by_cases hc : p c = true
    · rw [List.cons_append, wstarts_cons_pos p c (rest ++ s2) b hc,
        wstarts_cons_pos p c rest b hc]
      have h2 := ih false
      omega
    · have hc2 : p c = false := by simpa using hc
      rw [List.cons_append, wstarts_cons_neg p c (rest ++ s2) b hc2,
        wstarts_cons_neg p c rest b hc2]
      exact ih true

theorem wstarts_false_of_all (p : Char → Bool) (s : List Char)
    (h : ∀ c ∈ s, p c = true) : wstarts p false s = 0 := by
  induction s with
  | nil => rfl
  | cons c rest ih =>
    have hc := h c (List.mem_cons_self _ _)
    simp only [wstarts, hc, if_pos]
    simpa using ih fun d hd => h d (List.mem_cons_of_mem _ hd)

theorem wstarts_one_of_word (p : Char → Bool) (w : List Char)
    (hne : w ≠ []) (h : ∀ c ∈ w, p c = true) : wstarts p true w = 1 := by
  cases w with
  | nil => exact absurd rfl hne
  | cons c rest =>
    have hc := h c (List.mem_cons_self _ _)
    simp only [wstarts, hc, if_pos]
    rw [wstarts_false_of_all p rest fun d hd => h d (List.mem_cons_of_mem _ hd)]

theorem wstarts_joinSpace_le (p : Char → Bool) (hsp : p ' ' = false)
    (ws : List (List Char)) (h : ∀ w ∈ ws, w ≠ [] ∧ ∀ c ∈ w, p c = true) :
    wstarts p true (joinSpace ws) ≤ ws.length := by
  induction ws with
  | nil => simp [joinSpace, wstarts]
  | cons w rest ih =>
    cases rest with
    | nil =>
      have hw := h w (List.mem_cons_self _ _)
      simp only [joinSpace, List.length_cons, List.length_nil]
      rw [wstarts_one_of_word p w hw.1 hw.2]
    | cons w2 rest2 =>
      have hw := h w (List.mem_cons_self _ _)
      have step : joinSpace (w :: w2 :: rest2) = w ++ ' ' :: joinSpace (w2 :: rest2) := rfl
      rw [step]
      calc wstarts p true (w ++ ' ' :: joinSpace (w2 :: rest2))
          ≤ wstarts p true w + wstarts p true (' ' :: joinSpace (w2 :: rest2)) :=
            wstarts_append_le p _ _ true
        _ = 1 + wstarts p true (joinSpace (w2 :: rest2)) := by
            rw [wstarts_one_of_word p w hw.1 hw.2]
            simp [wstarts, hsp]
        _ ≤ 1 + (w2 :: rest2).length := by
            have := ih fun x hx => h x (List.mem_cons_of_mem _ hx)
            omega
        _ = (w :: w2 :: rest2).length := by simp [Nat.add_comm]

theorem wstarts_take_le (p : Char → Bool) (s : List Char) (k : ℕ) (b : Bool) :
    wstarts p b (s.take k) ≤ wstarts p b s := by
  conv_rhs => rw [← List.take_append_drop k s]
  exact wstarts_of_prefix_le p _ _ b

/-- C6: for every text and word budget of at least 1, the word count of
the truncated text is at most the budget plus one (the appended ellipsis
marker), and a text already within budget is returned unchanged. -/
theorem C6_limit_words_budget (text : List Char) (n : ℕ) (hn : 1 ≤ n) :
    (pyWords (limitWords text n)).length ≤ n + 1 ∧
      ((pyWords text).length ≤ n → limitWords text n = text) := by
  constructor
  · by_cases hover : n < (pyWords text).length
    · have hgood : ∀ w ∈ (pyWords text).take n,
          w ≠ [] ∧ ∀ c ∈ w, (!isPySpace c) = true := by
        intro w hw
        exact runsBy_mem _ text w (List.mem_of_mem_take hw)
      have hsp : (!isPySpace ' ') = false := by decide
      have htrunc :
          (pyWords (joinSpace ((pyWords text).take n))).length ≤ n := by
        unfold pyWords
        rw [runsBy_length]
        calc wstarts (fun c => !isPySpace c) true (joinSpace ((pyWords text).take n))
            ≤ ((pyWords text).take n).length :=
              wstarts_joinSpace_le _ hsp _ hgood
          _ ≤ n := by simp [List.length_take]
      set ws := pyWords text with hws
      set truncated := joinSpace (ws.take n) with htr
      by_cases hpunct : endsSentencePunct truncated = true
      · simp only [limitWords, if_pos hover, hpunct, if_pos]
        exact htrunc.trans (Nat.le_succ n)
      · set lsb : Int :=
          max (rfindChar '.' truncated)
            (max (rfindChar '!' truncated) (rfindChar '?' truncated)) with hlsb
        by_cases hcut : (truncated.length : Int) - 30 < lsb
        · simp only [limitWords, if_pos hover, hpunct, ← hlsb, if_pos hcut,
            Bool.false_eq_true, if_false]
          have : (pyWords (truncated.take (lsb + 1).toNat)).length ≤
              (pyWords truncated).length := by
            unfold pyWords
            rw [runsBy_length, runsBy_length]
            exact wstarts_take_le _ _ _ _
          exact (this.trans htrunc).trans (Nat.le_succ n)
        · simp only [limitWords, if_pos hover, hpunct, ← hlsb, if_neg hcut,
            Bool.false_eq_true, if_false]
          unfold pyWords
          rw [runsBy_length]
          calc wstarts (fun c => !isPySpace c) true (truncated ++ "...".data)
              ≤ wstarts (fun c => !isPySpace c) true truncated +
                wstarts (fun c => !isPySpace c) true "...".data :=
                wstarts_append_le _ _ _ _
            _ ≤ n + 1 := by
                have h1 : wstarts (fun c => !isPySpace c) true truncated ≤ n := by
                  have := htrunc
                  unfold pyWords at this
                  rwa [runsBy_length] at this
                have h2 : wstarts (fun c => !isPySpace c) true "...".data = 1 := by
                  decide
                omega
    · simp only [limitWords, if_neg hover]
      push_neg at hover
      exact hover.trans (Nat.le_succ n)
  · intro hle
    have : ¬ n < (pyWords text).length := by omega
    simp [limitWords, this]

/-- C6 witness: the budget theorem applied at a concrete text and budget. -/
theorem C6_limit_words_budget_witness :
    1 ≤ 2 ∧
      ((pyWords (limitWords "one two three four".data 2)).length ≤ 2 + 1 ∧
        ((pyWords "one two three four".data).length ≤ 2 →
          limitWords "one two three four".data 2 = "one two three four".data)) :=
  ⟨by decide, C6_limit_words_budget "one two three four".data 2 (by decide)⟩

/-- The output document written by `save_brief_data`. -/
structure BriefData where
  briefDate : List Char
  generatedAt : List Char
  items : List Entry
  totalItems : ℕ

/-- Embedding of `save_brief_data`: the JSON document holds the brief
date, the generation timestamp, the entries under `items`, and
`total_items` set to `len(entries)`. -/
def saveBriefData (briefDate generatedAt : List Char) (entries : List Entry) :
    BriefData :=
  { briefDate := briefDate
    generatedAt := generatedAt
    items := entries
    totalItems := entries.length }

/-- C10: for every input list of entries, the brief document written by
`save_brief_data` has its `total_items` field equal to the number of
records in its `items` array. -/
theorem C10_total_items_eq_length (briefDate generatedAt : List Char)
    (entries : List Entry) :
    (saveBriefData briefDate generatedAt entries).totalItems =
      (saveBriefData briefDate generatedAt entries).items.length := rfl

/-- Embedding of `_calculate_recency_score`: parse the publication date
(the embedded parse result lives in `Entry.pubDate`), take the day
difference of the timedelta `now - pub_date` (Python timedelta `.days`
floor-divides the signed difference by 86400 seconds), and return
`exp(-days_old / 30.0)`; any parse failure is caught and yields the
default 0.5. -/
noncomputable def calculateRecencyScore (e : Entry) (now : Int) : ℝ :=
  match e.pubDate with
  | some p => Real.exp (-((((now - p).fdiv 86400 : Int) : ℝ) / 30))
  | none => 1 / 2

/-- Recency score exactly as the specification claims it: the age in
days clamped to be non-negative before the exponential decay. -/
noncomputable def specRecencyScore (e : Entry) (now : Int) : ℝ :=
  match e.pubDate with
  | some p => Real.exp (-(((max 0 ((now - p).fdiv 86400) : Int) : ℝ) / 30))
  | none => 1 / 2

/-- An entry whose parsed publication date lies five days in the future
of the reference time 0. -/
def c8Entry : Entry :=
  { id := "future".data, title := [], description := [], link := []
    pubDate := some 432000 }

/-- C8 counterexample: the code does not clamp the age to be
non-negative, so a five-days-in-the-future publication date yields
`exp(1/6) > 1` while the claimed clamped formula yields `exp 0 = 1`. -/
theorem C8_no_clamping_counterexample :
    calculateRecencyScore c8Entry 0 ≠ specRecencyScore c8Entry 0 ∧
      1 < calculateRecencyScore c8Entry 0 := by
  have hdays : ((0 : Int) - 432000).fdiv 86400 = -5 := by decide
  have hcode : calculateRecencyScore c8Entry 0 = Real.exp (1 / 6) := by
    show Real.exp (-(((((0 : Int) - 432000).fdiv 86400 : Int) : ℝ) / 30)) = _
    rw [hdays]
    norm_num
  have hspec : specRecencyScore c8Entry 0 = 1 := by
    show Real.exp (-(((max 0 (((0 : Int) - 432000).fdiv 86400) : Int) : ℝ) / 30)) = 1
    rw [hdays]
    norm_num
  have hlt : (1 : ℝ) < Real.exp (1 / 6) := by
    calc (1 : ℝ) = Real.exp 0 := Real.exp_zero.symm
      _ < Real.exp (1 / 6) := Real.exp_lt_exp.mpr (by norm_num)
  refine ⟨?_, by rw [hcode]; exact hlt⟩
  rw [hcode, hspec]
  exact ne_of_gt hlt

theorem real_exp_int_mul (x : ℝ) (n : ℤ) :
    Real.exp ((n : ℝ) * x) = Real.exp x ^ n := by
  rcases le_or_lt 0 n with h | h
  · lift n to ℕ using h
    rw [zpow_natCast, ← Real.exp_nat_mul]
    norm_num
  · obtain ⟨m, rfl⟩ : ∃ m : ℕ, n = -(m : ℤ) := ⟨(-n).toNat, by omega⟩
    rw [zpow_neg, zpow_natCast, ← Real.exp_nat_mul, ← Real.exp_neg]
    push_cast
    ring_nf

/-- C8 amended: the recency score is the exponential decay of the signed
(not clamped) day difference, equivalently the fixed daily factor
`exp(-1/30)` raised to the integer day age; an unparsable date receives
the fixed neutral score 0.5, and the score only stays at most 1 for
publication dates not in the future. -/
theorem C8_recency_decay_formula (e : Entry) (now : Int) :
    (e.pubDate = none → calculateRecencyScore e now = 1 / 2) ∧
      (∀ p, e.pubDate = some p →
        calculateRecencyScore e now =
          Real.exp (-(1 : ℝ) / 30) ^ ((now - p).fdiv 86400) ∧
        (p ≤ now → calculateRecencyScore e now ≤ 1)) := by
  constructor
  · intro hnone
    simp [calculateRecencyScore, hnone]
  · intro p hp
    have hcode : calculateRecencyScore e now =
        Real.exp (-((((now - p).fdiv 86400 : Int) : ℝ) / 30)) := by
      simp [calculateRecencyScore, hp]
    constructor
    · rw [hcode, ← real_exp_int_mul]
      congr 1
      push_cast
      ring
    · intro hle
      have hd : 0 ≤ (now - p).fdiv 86400 :=
        Int.fdiv_nonneg (by omega) (by norm_num)
      rw [hcode]
      have : (-((((now - p).fdiv 86400 : Int) : ℝ) / 30)) ≤ 0 := by
        have : (0 : ℝ) ≤ (((now - p).fdiv 86400 : Int) : ℝ) := by
          exact_mod_cast hd
        nlinarith
      calc Real.exp (-((((now - p).fdiv 86400 : Int) : ℝ) / 30))
          ≤ Real.exp 0 := Real.exp_le_exp.mpr this
        _ = 1 := Real.exp_zero

/-- An entry whose parsed publication date is the epoch, three days
before the reference time. -/
def c8PastEntry : Entry :=
  { id := "past".data, title := [], description := [], link := []
    pubDate := some 0 }

/-- C8 witness: the amended recency theorem applied at a concrete
three-days-old entry. -/
theorem C8_recency_decay_formula_witness :
    calculateRecencyScore c8PastEntry 259200 =
      Real.exp (-(1 : ℝ) / 30) ^ (((259200 : Int) - 0).fdiv 86400) ∧
      calculateRecencyScore c8PastEntry 259200 ≤ 1 :=
  ⟨((C8_recency_decay_formula c8PastEntry 259200).2 0 rfl).1,
   ((C8_recency_decay_formula c8PastEntry 259200).2 0 rfl).2 (by decide)⟩

/-- Word-character test embedding the regex class `\w` over the ASCII
range this code base feeds it: letters, digits and the underscore. -/
def isWordChar (c : Char) : Bool :=
  c.isAlphanum || c = '_'

/-- Embedding of `re.findall(r'\b\w+\b', text)`: the maximal
word-character runs of the text. -/
def reWords (s : List Char) : List (List Char) :=
  runsBy isWordChar s

/-- Scanner for Python `str.count`: the `k` counter skips the remainder
of a counted occurrence so occurrences never overlap. -/
def countSubAux (n : List Char) : List Char → ℕ → ℕ
  | [], _ => 0
  | _ :: rest, k + 1 => countSubAux n rest k
  | c :: rest, 0 =>
    if n.isPrefixOf (c :: rest) then 1 + countSubAux n rest (n.length - 1)
    else countSubAux n rest 0

/-- Embedding of Python `str.count`: the number of non-overlapping
occurrences of the needle; the empty needle counts every gap as Python
does. -/
def countSub (h n : List Char) : ℕ :=
  if n.isEmpty then h.length + 1 else countSubAux n h 0

/-- The fallback controlled vocabulary inside
`_calculate_relevance_score`, used when the caller passes an empty one. -/
def defaultVocab : List (List Char) :=
  ["artificial intelligence", "machine learning", "deep learning", "neural network",
   "chatgpt", "gpt-4", "large language model", "llm", "generative ai",
   "natural language processing", "nlp", "foundation model",
   "clinical trial", "clinical research", "patient recruitment", "trial design",
   "trial protocol", "clinical study", "randomized controlled trial",
   "trial monitoring", "clinical data", "trial automation"].map String.data

/-- The controlled vocabulary fixed in `_rank_articles`. -/
def rankVocab : List (List Char) :=
  ["artificial intelligence", "machine learning", "deep learning", "neural network",
   "chatgpt", "gpt-4", "gpt-3", "claude", "llama", "gemini",
   "large language model", "llm", "foundation model", "generative ai",
   "natural language processing", "nlp", "computer vision",
   "clinical trial", "clinical research", "patient recruitment", "trial design",
   "trial protocol", "clinical study", "randomized controlled trial", "rct",
   "trial monitoring", "clinical data", "trial automation", "patient engagement",
   "synthetic data", "ai chatbot", "virtual assistant", "clinical documentation"].map String.data

/-- The occurrence count of one vocabulary term, as computed inside the
scoring loop of `_calculate_relevance_score`: an exact word-list count
when `term.split()` has a single piece, and otherwise a non-overlapping
substring count of the term inside the space-joined word text. -/
def termCountIn (ws : List (List Char)) (term : List Char) : ℕ :=
  let termWords := pyWords term
  if termWords.length = 1 then ws.count (termWords.headD [])
  else countSub (joinSpace ws) term

/-- The BM25-style contribution of one vocabulary term inside
`_calculate_relevance_score`: zero when the term does not occur, else
`idf * (tf * (k1 + 1)) / (tf + k1 * (1 - b + b * (dl / avg)))` with
`k1 = 1.2`, `b = 0.75`, assumed average document length 50, and the
simplified idf `log((1000 + 1) / (term_count + 1))`. -/
noncomputable def termBM25 (ws : List (List Char)) (term : List Char) : ℝ :=
  let termCount := termCountIn ws term
  if 0 < termCount then
    let docLength : ℝ := ws.length
    let tf : ℝ := (termCount : ℝ) / docLength
    let idf : ℝ := Real.log ((1000 + 1) / ((termCount : ℝ) + 1))
    idf * (tf * (1.2 + 1)) / (tf + 1.2 * (1 - 0.75 + 0.75 * (docLength / 50)))
  else 0

/-- Embedding of `_calculate_relevance_score`: substitute the default
vocabulary for an empty one, split the lower-cased
title-plus-description into regex words, return 0 for an empty word
list, and otherwise accumulate the BM25-style contributions of all
vocabulary terms. -/
noncomputable def calculateRelevanceScore (e : Entry)
    (vocab : List (List Char)) : ℝ :=
  let vocab2 := if vocab.isEmpty then defaultVocab else vocab
  let ws := reWords (screeningText e)
  if ws.isEmpty then 0
  else (vocab2.map (termBM25 ws)).sum

theorem runsBy_word (p : Char → Bool) (w : List Char) (hne : w ≠ [])
    (h : ∀ c ∈ w, p c = true) : runsBy p w = [w] := by
  induction w with
  | nil => exact absurd rfl hne
  | cons c rest ih =>
    have hc := h c (List.mem_cons_self _ _)
    cases rest with
    | nil => exact runsBy_singleton_pos p c hc
    | cons d t =>
      have hd := h d (List.mem_cons_of_mem _ (List.mem_cons_self _ _))
      have hrec : runsBy p (d :: t) = [d :: t] :=
        ih (by simp) fun x hx => h x (List.mem_cons_of_mem _ hx)
      exact runsBy_cons_cons_pos p c d t hc hd (d :: t) [] hrec

theorem runsBy_word_append (p : Char → Bool) (sep : Char)
    (hsep : p sep = false) (w t : List Char) (hne : w ≠ [])
    (h : ∀ c ∈ w, p c = true) :
    runsBy p (w ++ sep :: t) = w :: runsBy p t := by
  induction w with
  | nil => exact absurd rfl hne
  | cons c rest ih =>
    have hc := h c (List.mem_cons_self _ _)
    cases rest with
    | nil =>
      have h1 : runsBy p (sep :: t) = runsBy p t := runsBy_cons_neg p sep t hsep
      have h2 := runsBy_cons_cons_neg p c sep t hc hsep
      simpa [h1] using h2
    | cons d w2 =>
      have hd := h d (List.mem_cons_of_mem _ (List.mem_cons_self _ _))
      have hrec : runsBy p ((d :: w2) ++ sep :: t) = (d :: w2) :: runsBy p t :=
        ih (by simp) fun x hx => h x (List.mem_cons_of_mem _ hx)
      have := runsBy_cons_cons_pos p c d (w2 ++ sep :: t) hc hd
        (d :: w2) (runsBy p t) (by simpa using hrec)
      simpa using this

theorem runsBy_joinSpace (p : Char → Bool) (hsp : p ' ' = false)
    (ws : List (List Char)) (h : ∀ w ∈ ws, w ≠ [] ∧ ∀ c ∈ w, p c = true) :
    runsBy p (joinSpace ws) = ws := by
  induction ws with
  | nil => rfl
  | cons w rest ih =>
    cases rest with
    | nil =>
      have hw := h w (List.mem_cons_self _ _)
      show runsBy p (joinSpace [w]) = [w]
      simpa [joinSpace] using runsBy_word p w hw.1 hw.2
    | cons w2 rest2 =>
      have hw := h w (List.mem_cons_self _ _)
      have hstep : joinSpace (w :: w2 :: rest2) = w ++ ' ' :: joinSpace (w2 :: rest2) := rfl
      rw [hstep, runsBy_word_append p ' ' hsp w _ hw.1 hw.2,
        ih fun x hx => h x (List.mem_cons_of_mem _ hx)]

theorem mem_joinSpace (ws : List (List Char)) (c : Char)
    (hc : c ∈ joinSpace ws) : c = ' ' ∨ ∃ w ∈ ws, c ∈ w := by
  induction ws with
  | nil => simp [joinSpace] at hc
  | cons w rest ih =>
    cases rest with
    | nil =>
      right
      exact ⟨w, by simp, by simpa [joinSpace] using hc⟩
    | cons w2 rest2 =>
      rw [show joinSpace (w :: w2 :: rest2) = w ++ ' ' :: joinSpace (w2 :: rest2)
        from rfl] at hc
      rcases List.mem_append.mp hc with h | h
      · right; exact ⟨w, by simp, h⟩
      · rcases List.mem_cons.mp h with h | h
        · left; exact h
        · rcases ih h with h | ⟨w3, hw3, hcw3⟩
          · left; exact h
          · right; exact ⟨w3, by simp [hw3], hcw3⟩

theorem countSubAux_eq_zero (n : List Char) (c : Char) (hc : c ∈ n) :
    ∀ (h : List Char) (k : ℕ), c ∉ h → countSubAux n h k = 0 := by
  intro h
  induction h with
  | nil => intro k _; rfl
  | cons d rest ih =>
    intro k hch
    have hrest : c ∉ rest := fun hx => hch (List.mem_cons_of_mem _ hx)
    cases k with
    | succ k2 => exact ih k2 hrest
    | zero =>
      have hpre : n.isPrefixOf (d :: rest) = false := by
        by_contra hcon
        have : n.isPrefixOf (d :: rest) = true := by
          cases hb : n.isPrefixOf (d :: rest)
          · exact absurd hb hcon
          · rfl
        have hsub : n ⊆ d :: rest :=
          (List.isPrefixOf_iff_prefix.mp this).sublist.subset
        exact hch (hsub hc)
      simp only [countSubAux, hpre, Bool.false_eq_true, if_false]
      exact ih 0 hrest

theorem countSub_eq_zero (h n : List Char) (c : Char) (hc : c ∈ n)
    (hch : c ∉ h) : countSub h n = 0 := by
  have hne : n.isEmpty = false := by
    cases n
    · simp at hc
    · rfl
  simp only [countSub, hne, Bool.false_eq_true, if_false]
  exact countSubAux_eq_zero n c hc h 0 hch

theorem termCountIn_single (ws : List (List Char)) (term : List Char)
    (h : (pyWords term).length = 1) :
    termCountIn ws term = ws.count ((pyWords term).headD []) := by
  simp [termCountIn, h]

theorem termCountIn_multi (ws : List (List Char)) (term : List Char)
    (h : (pyWords term).length ≠ 1) :
    termCountIn ws term = countSub (joinSpace ws) term := by
  simp [termCountIn, h]

theorem termBM25_of_count_zero (ws : List (List Char)) (term : List Char)
    (h : termCountIn ws term = 0) : termBM25 ws term = 0 := by
  simp [termBM25, h]

theorem termBM25_nonneg (ws : List (List Char)) (term : List Char)
    (hdl : 1 ≤ ws.length) (hle : termCountIn ws term ≤ 1000) :
    0 ≤ termBM25 ws term := by
  unfold termBM25
  by_cases hpos : 0 < termCountIn ws term
  · rw [if_pos hpos]
    set tc := termCountIn ws term with htc
    have hdlR : (1 : ℝ) ≤ (ws.length : ℝ) := by exact_mod_cast hdl
    have htf : (0 : ℝ) ≤ (tc : ℝ) / (ws.length : ℝ) :=
      div_nonneg (by positivity) (by linarith)
    have hidf : (0 : ℝ) ≤ Real.log ((1000 + 1) / ((tc : ℝ) + 1)) := by
      apply Real.log_nonneg
      rw [le_div_iff (by positivity)]
      have : (tc : ℝ) ≤ 1000 := by exact_mod_cast hle
      linarith
    have hden : (0 : ℝ) < (tc : ℝ) / (ws.length : ℝ) +
        1.2 * (1 - 0.75 + 0.75 * ((ws.length : ℝ) / 50)) := by
      nlinarith [htf, hdlR]
    apply div_nonneg
    · apply mul_nonneg hidf
      apply mul_nonneg htf
      norm_num
    · exact le_of_lt hden
  · rw [if_neg hpos]

theorem termBM25_congr (ws1 ws2 : List (List Char)) (term : List Char)
    (hlen : ws1.length = ws2.length)
    (hcount : termCountIn ws1 term = termCountIn ws2 term) :
    termBM25 ws1 term = termBM25 ws2 term := by
  simp [termBM25, hlen, hcount]

/-- A 1000-word document: 900 occurrences of the vocabulary term `llm`
plus 100 filler words. -/
def c9WordsA : List (List Char) :=
  List.replicate 900 "llm".data ++ List.replicate 100 "z".data

/-- A 1000-word document consisting of 1000 occurrences of `llm`. -/
def c9WordsB : List (List Char) :=
  List.replicate 1000 "llm".data

/-- The space-joined text of the 900-hit document. -/
def c9TextA : List Char := joinSpace c9WordsA

/-- The space-joined text of the 1000-hit document. -/
def c9TextB : List Char := joinSpace c9WordsB

/-- The entry carrying the 900-hit description. -/
def c9EntryA : Entry :=
  { id := "hits900".data, title := [], description := c9TextA, link := []
    pubDate := none }

/-- The entry carrying the 1000-hit description. -/
def c9EntryB : Entry :=
  { id := "hits1000".data, title := [], description := c9TextB, link := []
    pubDate := none }

theorem c9TextA_chars (c : Char) (hc : c ∈ c9TextA) :
    c ∈ (['l', 'm', 'z', ' '] : List Char) := by
  rcases mem_joinSpace c9WordsA c hc with h | ⟨w, hw, hcw⟩
  · simp [h]
  · rcases List.mem_append.mp hw with h | h
    · obtain rfl := List.eq_of_mem_replicate h
      simp only [String.data] at hcw
      fin_cases hcw <;> decide
    · obtain rfl := List.eq_of_mem_replicate h
      simp only [String.data] at hcw
      fin_cases hcw <;> decide

theorem c9TextB_chars (c : Char) (hc : c ∈ c9TextB) :
    c ∈ (['l', 'm', ' '] : List Char) := by
  rcases mem_joinSpace c9WordsB c hc with h | ⟨w, hw, hcw⟩
  · simp [h]
  · obtain rfl := List.eq_of_mem_replicate hw
    simp only [String.data] at hcw
    fin_cases hcw <;> decide

theorem c9WordsA_good :
    ∀ w ∈ c9WordsA, w ≠ [] ∧ ∀ c ∈ w, isWordChar c = true := by
  intro w hw
  rcases List.mem_append.mp hw with h | h
  · obtain rfl := List.eq_of_mem_replicate h
    exact ⟨by decide, by decide⟩
  · obtain rfl := List.eq_of_mem_replicate h
    exact ⟨by decide, by decide⟩

theorem c9WordsB_good :
    ∀ w ∈ c9WordsB, w ≠ [] ∧ ∀ c ∈ w, isWordChar c = true := by
  intro w hw
  obtain rfl := List.eq_of_mem_replicate hw
  exact ⟨by decide, by decide⟩

theorem c9ScreenA : screeningText c9EntryA = ' ' :: c9TextA := by
  show pyLower ([] ++ ' ' :: c9TextA) = ' ' :: c9TextA
  rw [List.nil_append]
  unfold pyLower
  rw [List.map_cons]
  have h1 : Char.toLower ' ' = ' ' := by decide
  have h2 : ∀ c ∈ c9TextA, Char.toLower c = id c := by
    intro c hc
    have h := c9TextA_chars c hc
    fin_cases h <;> decide
  rw [h1, List.map_congr_left h2, List.map_id]

theorem c9ScreenB : screeningText c9EntryB = ' ' :: c9TextB := by
  show pyLower ([] ++ ' ' :: c9TextB) = ' ' :: c9TextB
  rw [List.nil_append]
  unfold pyLower
  rw [List.map_cons]
  have h1 : Char.toLower ' ' = ' ' := by decide
  have h2 : ∀ c ∈ c9TextB, Char.toLower c = id c := by
    intro c hc
    have h := c9TextB_chars c hc
    fin_cases h <;> decide
  rw [h1, List.map_congr_left h2, List.map_id]

theorem c9ReWordsA : reWords (screeningText c9EntryA) = c9WordsA := by
  rw [c9ScreenA]
  unfold reWords
  rw [runsBy_cons_neg isWordChar ' ' c9TextA (by decide)]
  exact runsBy_joinSpace isWordChar (by decide) c9WordsA c9WordsA_good

theorem c9ReWordsB : reWords (screeningText c9EntryB) = c9WordsB := by
  rw [c9ScreenB]
  unfold reWords
  rw [runsBy_cons_neg isWordChar ' ' c9TextB (by decide)]
  exact runsBy_joinSpace isWordChar (by decide) c9WordsB c9WordsB_good

theorem c9WordsA_length : c9WordsA.length = 1000 := by
  unfold c9WordsA
  rw [List.length_append, List.length_replicate, List.length_replicate]

theorem c9WordsB_length : c9WordsB.length = 1000 := by
  unfold c9WordsB
  rw [List.length_replicate]

theorem c9WordsA_ne_nil : c9WordsA.isEmpty = false := by
  rw [List.isEmpty_eq_false]
  intro h
  have := c9WordsA_length
  rw [h] at this
  simp at this

theorem c9WordsB_ne_nil : c9WordsB.isEmpty = false := by
  rw [List.isEmpty_eq_false]
  intro h
  have := c9WordsB_length
  rw [h] at this
  simp at this

theorem c9A_count_llm : c9WordsA.count "llm".data = 900 := by
  unfold c9WordsA
  rw [List.count_append]
  have h2 : (List.replicate 100 "z".data).count "llm".data = 0 := by
    rw [List.count_eq_zero]
    intro hmem
    exact absurd (List.eq_of_mem_replicate hmem) (by decide)
  rw [List.count_replicate_self, h2]

theorem c9B_count_llm : c9WordsB.count "llm".data = 1000 := by
  unfold c9WordsB
  rw [List.count_replicate_self]

theorem c9A_count_other (w : List Char) (h1 : w ≠ "llm".data)
    (h2 : w ≠ "z".data) : c9WordsA.count w = 0 := by
  rw [List.count_eq_zero]
  intro hmem
  rcases List.mem_append.mp hmem with h | h
  · exact h1 (List.eq_of_mem_replicate h)
  · exact h2 (List.eq_of_mem_replicate h)

theorem c9B_count_other (w : List Char) (h1 : w ≠ "llm".data) :
    c9WordsB.count w = 0 := by
  rw [List.count_eq_zero]
  intro hmem
  exact h1 (List.eq_of_mem_replicate hmem)

theorem c9A_termCount_llm : termCountIn c9WordsA "llm".data = 900 := by
  rw [termCountIn_single _ _ (by decide)]
  have h : (pyWords "llm".data).headD [] = "llm".data := by decide
  rw [h]
  exact c9A_count_llm

theorem c9B_termCount_llm : termCountIn c9WordsB "llm".data = 1000 := by
  rw [termCountIn_single _ _ (by decide)]
  have h : (pyWords "llm".data).headD [] = "llm".data := by decide
  rw [h]
  exact c9B_count_llm

theorem c9A_termCount_zero (t : List Char) (ht : t ∈ rankVocab)
    (hne : t ≠ "llm".data) : termCountIn c9WordsA t = 0 := by
  simp only [rankVocab, List.map_cons, List.map_nil, List.mem_cons,
    List.not_mem_nil, or_false] at ht
  rcases ht with rfl | rfl | rfl | rfl | rfl | rfl | rfl | rfl | rfl | rfl |
    rfl | rfl | rfl | rfl | rfl | rfl | rfl | rfl | rfl | rfl | rfl | rfl |
    rfl | rfl | rfl | rfl | rfl | rfl | rfl | rfl | rfl | rfl | rfl <;>
    first
    | exact absurd rfl hne
    | (rw [termCountIn_single _ _ (by decide)]
       exact c9A_count_other _ (by decide) (by decide))
    | (rw [termCountIn_multi _ _ (by decide)]
       exact countSub_eq_zero _ _ 'a' (by decide)
         (fun hmem => absurd (c9TextA_chars 'a' hmem) (by decide)))
    | (rw [termCountIn_multi _ _ (by decide)]
       exact countSub_eq_zero _ _ 'c' (by decide)
         (fun hmem => absurd (c9TextA_chars 'c' hmem) (by decide)))

theorem c9B_termCount_zero (t : List Char) (ht : t ∈ rankVocab)
    (hne : t ≠ "llm".data) : termCountIn c9WordsB t = 0 := by
  simp only [rankVocab, List.map_cons, List.map_nil, List.mem_cons,
    List.not_mem_nil, or_false] at ht
  rcases ht with rfl | rfl | rfl | rfl | rfl | rfl | rfl | rfl | rfl | rfl |
    rfl | rfl | rfl | rfl | rfl | rfl | rfl | rfl | rfl | rfl | rfl | rfl |
    rfl | rfl | rfl | rfl | rfl | rfl | rfl | rfl | rfl | rfl | rfl <;>
    first
    | exact absurd rfl hne
    | (rw [termCountIn_single _ _ (by decide)]
       exact c9B_count_other _ (by decide))
    | (rw [termCountIn_multi _ _ (by decide)]
       exact countSub_eq_zero _ _ 'a' (by decide)
         (fun hmem => absurd (c9TextB_chars 'a' hmem) (by decide)))
    | (rw [termCountIn_multi _ _ (by decide)]
       exact countSub_eq_zero _ _ 'c' (by decide)
         (fun hmem => absurd (c9TextB_chars 'c' hmem) (by decide)))

theorem map_sum_eq_single (ws : List (List Char)) (vocab : List (List Char))
    (t0 : List Char)
    (hzero : ∀ t ∈ vocab, t ≠ t0 → termBM25 ws t = 0)
    (hone : vocab.count t0 = 1) :
    (vocab.map (termBM25 ws)).sum = termBM25 ws t0 := by
  induction vocab with
  | nil => simp at hone
  | cons v rest ih =>
    by_cases hv : v = t0
    · subst hv
      have hrest : rest.count v = 0 := by
        have hcc : (v :: rest).count v = rest.count v + 1 :=
          List.count_cons_self _ _
        omega
      have hnot : v ∉ rest := List.count_eq_zero.mp hrest
      have hrest0 : ∀ x ∈ rest.map (termBM25 ws), x = 0 := by
        intro x hx
        rcases List.mem_map.mp hx with ⟨t, ht, rfl⟩
        exact hzero t (List.mem_cons_of_mem _ ht) fun h => hnot (h ▸ ht)
      rw [List.map_cons, List.sum_cons, List.sum_eq_zero hrest0, add_zero]
    · have h0 : termBM25 ws v = 0 := hzero v (List.mem_cons_self _ _) hv
      rw [List.map_cons, List.sum_cons, h0, zero_add]
      apply ih
      · intro t ht
        exact hzero t (List.mem_cons_of_mem _ ht)
      · have hbeq : (v == t0) = false := by
          simp only [beq_eq_false_iff_ne, ne_eq]
          exact hv
        simp only [List.count_cons, hbeq, Bool.false_eq_true, if_false,
          Nat.add_zero] at hone
        exact hone

theorem c9_termBM25_B_zero : termBM25 c9WordsB "llm".data = 0 := by
  unfold termBM25
  rw [c9B_termCount_llm]
  rw [if_pos (by norm_num)]
  have h : ((1000 : ℕ) : ℝ) + 1 = 1001 := by norm_num
  rw [h]
  norm_num

theorem c9_termBM25_A_pos : 0 < termBM25 c9WordsA "llm".data := by
  unfold termBM25
  rw [c9A_termCount_llm]
  rw [if_pos (by norm_num)]
  have hlen : ((c9WordsA.length : ℕ) : ℝ) = 1000 := by
    rw [c9WordsA_length]
    norm_num
  rw [hlen]
  apply div_pos
  · apply mul_pos
    · apply Real.log_pos
      norm_num
    · norm_num
  · norm_num

/-- C9 counterexample: two candidates over the ranking vocabulary,
identical in word count and in every vocabulary count except that the
second has strictly more hits of the term `llm` (1000 against 900 in a
1000-word document), yet the second receives a strictly smaller
relevance score: the simplified idf factor `log(1001 / (count + 1))`
vanishes at 1000 occurrences. -/
theorem C9_more_hits_lower_score :
    termCountIn (reWords (screeningText c9EntryA)) "llm".data = 900 ∧
    termCountIn (reWords (screeningText c9EntryB)) "llm".data = 1000 ∧
    (reWords (screeningText c9EntryA)).length =
      (reWords (screeningText c9EntryB)).length ∧
    (rankVocab.all fun t => t == "llm".data ||
      termCountIn (reWords (screeningText c9EntryA)) t ==
        termCountIn (reWords (screeningText c9EntryB)) t) = true ∧
    calculateRelevanceScore c9EntryB rankVocab <
      calculateRelevanceScore c9EntryA rankVocab := by
  have hA := c9ReWordsA
  have hB := c9ReWordsB
  rw [hA, hB]
  refine ⟨c9A_termCount_llm, c9B_termCount_llm,
    by rw [c9WordsA_length, c9WordsB_length], ?_, ?_⟩
  · rw [List.all_eq_true]
    intro t ht
    by_cases h : t = "llm".data
    · simp [h]
    · rw [c9A_termCount_zero t ht h, c9B_termCount_zero t ht h]
      simp
  · have hveA : rankVocab.isEmpty = false := rfl
    have hwsA : c9WordsA.isEmpty = false := c9WordsA_ne_nil
    have hwsB : c9WordsB.isEmpty = false := c9WordsB_ne_nil
    have hsA : calculateRelevanceScore c9EntryA rankVocab =
        termBM25 c9WordsA "llm".data := by
      unfold calculateRelevanceScore
      rw [hA]
      simp only [hveA, hwsA, Bool.false_eq_true, if_false]
      exact map_sum_eq_single c9WordsA rankVocab "llm".data
        (fun t ht hne => termBM25_of_count_zero _ _ (c9A_termCount_zero t ht hne))
        (by decide)
    have hsB : calculateRelevanceScore c9EntryB rankVocab =
        termBM25 c9WordsB "llm".data := by
      unfold calculateRelevanceScore
      rw [hB]
      simp only [hveA, hwsB, Bool.false_eq_true, if_false]
      exact map_sum_eq_single c9WordsB rankVocab "llm".data
        (fun t ht hne => termBM25_of_count_zero _ _ (c9B_termCount_zero t ht hne))
        (by decide)
    rw [hsA, hsB, c9_termBM25_B_zero]
    exact c9_termBM25_A_pos

/-- C9 amended: the relevance score is monotone in vocabulary hits only
for fresh terms with bounded counts: when two candidates have equally
long word lists and every vocabulary term either occurs equally often in
both or is absent from the first and occurs between 1 and 1000 times in
the second, the second candidate scores at least as high.  (Beyond 1000
occurrences the idf factor becomes negative and monotonicity genuinely
fails, as the counterexample shows.) -/
theorem C9_relevance_monotone_fresh_terms (e1 e2 : Entry)
    (vocab : List (List Char))
    (hlen : (reWords (screeningText e1)).length =
      (reWords (screeningText e2)).length)
    (hterms : ∀ t ∈ (if vocab.isEmpty then defaultVocab else vocab),
      termCountIn (reWords (screeningText e1)) t =
          termCountIn (reWords (screeningText e2)) t ∨
        (termCountIn (reWords (screeningText e1)) t = 0 ∧
         1 ≤ termCountIn (reWords (screeningText e2)) t ∧
         termCountIn (reWords (screeningText e2)) t ≤ 1000)) :
    calculateRelevanceScore e1 vocab ≤ calculateRelevanceScore e2 vocab := by
  unfold calculateRelevanceScore
  by_cases h1 : (reWords (screeningText e1)).isEmpty
  · have h2 : (reWords (screeningText e2)).isEmpty = true := by
      rw [List.isEmpty_iff] at h1 ⊢
      rw [← List.length_eq_zero, ← hlen, h1]
      rfl
    simp [h1, h2]
  · have h1f : (reWords (screeningText e1)).isEmpty = false := by
      simpa using h1
    have h2f : (reWords (screeningText e2)).isEmpty = false := by
      rw [List.isEmpty_eq_false, ← List.length_pos] at h1f ⊢
      omega
    simp only [h1f, h2f, Bool.false_eq_true, if_false]
    apply List.sum_le_sum
    intro t ht
    rcases hterms t ht with heq | ⟨hz, h1c, h2c⟩
    · exact le_of_eq (termBM25_congr _ _ t hlen heq)
    · rw [termBM25_of_count_zero _ _ hz]
      apply termBM25_nonneg
      · rw [List.isEmpty_eq_false, ← List.length_pos] at h2f
        omega
      · exact h2c

/-- The three-word candidate with no vocabulary hits. -/
def c9SmallA : Entry :=
  { id := "s1".data, title := [], description := "zzz zzz zzz".data
    link := [], pubDate := none }

/-- The three-word candidate with two fresh hits of `llm`. -/
def c9SmallB : Entry :=
  { id := "s2".data, title := [], description := "llm llm zzz".data
    link := [], pubDate := none }

/-- C9 witness: the amended monotonicity theorem applied to two concrete
three-word candidates. -/
theorem C9_relevance_monotone_fresh_terms_witness :
    calculateRelevanceScore c9SmallA rankVocab ≤
      calculateRelevanceScore c9SmallB rankVocab :=
  C9_relevance_monotone_fresh_terms c9SmallA c9SmallB rankVocab
    (by decide) (by decide)

/-- The composite ranking key computed in `_rank_articles` and stored in
the scratch field `_ranking_score`: 70 percent relevance (over the fixed
ranking vocabulary) plus 30 percent recency. -/
noncomputable def rankingScore (now : Int) (e : Entry) : ℝ :=
  0.7 * calculateRelevanceScore e rankVocab + 0.3 * calculateRecencyScore e now

/-- One step of the stable sort behind Python `sorted(..., reverse=True)`:
insert an element after every already-placed element whose key is at
least as large, before the first strictly smaller one. -/
noncomputable def insertDesc (key : Entry → ℝ) (e : Entry) :
    List Entry → List Entry
  | [] => [e]
  | x :: xs => if key x < key e then e :: x :: xs else x :: insertDesc key e xs

/-- The stable descending sort semantics of Python
`sorted(entries, key=..., reverse=True)`: elements are inserted in their
original order, each after all earlier elements with an equal or larger
key. -/
noncomputable def stableSortDesc (key : Entry → ℝ) (entries : List Entry) :
    List Entry :=
  entries.foldl (fun acc e => insertDesc key e acc) []

/-- Embedding of `_rank_articles`: compute the composite score of every
entry and sort descending by it with Python's stable `sorted`; the
scratch score fields are attached and removed again, leaving the entries
themselves unchanged. -/
noncomputable def rankArticles (now : Int) (entries : List Entry) :
    List Entry :=
  stableSortDesc (rankingScore now) entries

theorem mem_insertDesc (key : Entry → ℝ) (e x : Entry) (l : List Entry) :
    x ∈ insertDesc key e l ↔ x = e ∨ x ∈ l := by
  induction l with
  | nil => simp [insertDesc]
  | cons y ys ih =>
    by_cases h : key y < key e
    · simp [insertDesc, h, List.mem_cons]
    · simp only [insertDesc, h, if_false, List.mem_cons, ih]
      tauto

theorem insertDesc_perm (key : Entry → ℝ) (e : Entry) (l : List Entry) :
    (insertDesc key e l).Perm (e :: l) := by
  induction l with
  | nil => simp [insertDesc]
  | cons y ys ih =>
    by_cases h : key y < key e
    · simp [insertDesc, h]
    · simp only [insertDesc, h, if_false]
      exact (ih.cons y).trans (List.Perm.swap e y ys)

theorem insertDesc_pairwise (key : Entry → ℝ) (e : Entry) (l : List Entry)
    (hl : l.Pairwise fun a b => key b ≤ key a) :
    (insertDesc key e l).Pairwise fun a b => key b ≤ key a := by
  induction l with
  | nil => simp [insertDesc]
  | cons y ys ih =>
    rcases List.pairwise_cons.mp hl with ⟨hy, hys⟩
    by_cases h : key y < key e
    · simp only [insertDesc, h, if_pos]
      rw [List.pairwise_cons]
      refine ⟨?_, hl⟩
      intro z hz
      rcases List.mem_cons.mp hz with rfl | hz
      · exact le_of_lt h
      · exact (hy z hz).trans (le_of_lt h)
    · simp only [insertDesc, h, if_false]
      rw [List.pairwise_cons]
      refine ⟨?_, ih hys⟩
      intro z hz
      rcases (mem_insertDesc key e z ys).mp hz with rfl | hz
      · exact le_of_not_lt h
      · exact hy z hz

theorem insertDesc_filter_key (key : Entry → ℝ) (e : Entry) (l : List Entry)
    (q : ℝ) (hl : l.Pairwise fun a b => key b ≤ key a) :
    (insertDesc key e l).filter (fun x => decide (key x = q)) =
      if key e = q then
        l.filter (fun x => decide (key x = q)) ++ [e]
      else l.filter (fun x => decide (key x = q)) := by
  induction l with
  | nil =>
    by_cases h : key e = q <;> simp [insertDesc, h]
  | cons y ys ih =>
    rcases List.pairwise_cons.mp hl with ⟨hy, hys⟩
    by_cases h : key y < key e
    · simp only [insertDesc, h, if_pos, List.filter_cons]
      by_cases hq : key e = q
      · have hyq : ¬ key y = q := by
          intro hzq; rw [hzq, ← hq] at h; exact lt_irrefl _ h
        have hfil : ys.filter (fun x => decide (key x = q)) = [] := by
          rw [List.filter_eq_nil]
          intro z hz
          simp only [decide_eq_true_eq]
          intro hzq
          have hlt := (hy z hz).trans_lt h
          rw [hzq, ← hq] at hlt
          exact lt_irrefl _ hlt
        simp [hq, hyq, hfil]
      · simp [hq]
    · simp only [insertDesc, h, if_false, List.filter_cons]
      rw [ih hys]
      by_cases hq : key e = q <;> by_cases hyq : key y = q <;>
        simp [hq, hyq]

theorem stableSortDesc_loop (key : Entry → ℝ) (l : List Entry)
    (acc : List Entry) (hacc : acc.Pairwise fun a b => key b ≤ key a) :
    (l.foldl (fun acc e => insertDesc key e acc) acc).Perm (acc ++ l) ∧
    ((l.foldl (fun acc e => insertDesc key e acc) acc).Pairwise
      fun a b => key b ≤ key a) ∧
    (∀ q : ℝ, (l.foldl (fun acc e => insertDesc key e acc) acc).filter
        (fun x => decide (key x = q)) =
      acc.filter (fun x => decide (key x = q)) ++
        l.filter (fun x => decide (key x = q))) := by
  induction l generalizing acc with
  | nil => simp [hacc]
  | cons e rest ih =>
    have hstep := ih (insertDesc key e acc) (insertDesc_pairwise key e acc hacc)
    refine ⟨?_, hstep.2.1, ?_⟩
    · exact hstep.1.trans
        (((insertDesc_perm key e acc).append_right rest).trans
          List.perm_middle.symm)
    · intro q
      rw [List.foldl_cons, hstep.2.2 q,
        insertDesc_filter_key key e acc q hacc, List.filter_cons]
      by_cases hq : key e = q <;> simp [hq, List.append_assoc]

/-- C7: the ranker returns a permutation of its input that is sorted in
descending order of the composite score `0.7 * relevance +
0.3 * recency`, and the sort is stable: for every score value the
entries carrying that score keep their original relative order. -/
theorem C7_rank_articles_stable_desc (now : Int) (entries : List Entry) :
    (rankArticles now entries).Perm entries ∧
    ((rankArticles now entries).Pairwise fun a b =>
      0.7 * calculateRelevanceScore b rankVocab +
          0.3 * calculateRecencyScore b now ≤
        0.7 * calculateRelevanceScore a rankVocab +
          0.3 * calculateRecencyScore a now) ∧
    (∀ q : ℝ, (rankArticles now entries).filter
        (fun e => decide (rankingScore now e = q)) =
      entries.filter (fun e => decide (rankingScore now e = q))) := by
  have h := stableSortDesc_loop (rankingScore now) entries [] (by simp)
  refine ⟨by simpa using h.1, ?_, ?_⟩
  · have h2 := h.2.1
    unfold rankArticles stableSortDesc
    unfold rankingScore at h2
    exact h2
  · intro q
    have h3 := h.2.2 q
    simpa using h3

/-- Modeled from the documented behavior of
`unicodedata.normalize("NFKD", text)`: a character-wise compatibility
decomposition restricted to a finite table of representative characters
(no-break space, micro sign, ordinal indicators, superscripts, vulgar
fractions, precomposed Latin letters, ligatures, the horizontal
ellipsis).  As in the real Unicode tables, every character produced by a
decomposition is itself decomposition-free, which makes the
normalization idempotent. -/
def nfkdTable : List (Char × List Char) :=
  [('\xa0', [' ']),
   ('µ', ['μ']),
   ('ª', ['a']), ('º', ['o']),
   ('¹', ['1']), ('²', ['2']), ('³', ['3']),
   ('¼', ['1', '⁄', '4']), ('½', ['1', '⁄', '2']), ('¾', ['3', '⁄', '4']),
   ('à', ['a', '̀']), ('á', ['a', '́']), ('è', ['e', '̀']), ('é', ['e', '́']),
   ('ñ', ['n', '̃']), ('ö', ['o', '̈']), ('ü', ['u', '̈']), ('ç', ['c', '̧']),
   ('ﬁ', ['f', 'i']), ('ﬂ', ['f', 'l']),
   ('…', ['.', '.', '.'])]

/-- The decomposition of a single character under the modeled NFKD
normalization. -/
def nfkdChar (c : Char) : List Char :=
  match nfkdTable.find? (fun p => p.1 == c) with
  | some p => p.2
  | none => [c]

/-- The modeled `unicodedata.normalize("NFKD", text)` call of
`_sanitize_text`, applied character-wise. -/
def nfkd (s : List Char) : List Char :=
  s.flatMap nfkdChar

/-- The `unicode_replacements` dict of `_sanitize_text`, in insertion
order.  Every key is a single character; the three bullet characters are
mapped to themselves. -/
def uniReplacements : List (Char × List Char) :=
  [('–', ['-']), ('—', ['-', '-']), ('―', ['-', '-']),
   ('‘', ['\'']), ('’', ['\'']), ('‚', ['\'']), ('‛', ['\'']),
   ('“', ['"']), ('”', ['"']), ('„', ['"']), ('‟', ['"']),
   ('…', ['.', '.', '.']),
   ('\xa0', [' ']),
   ('­', []),
   ('﻿', []), ('​', []), ('‌', []), ('‍', []),
   ('⁠', []),
   ('•', ['•']), ('‣', ['‣']), ('◦', ['◦']),
   ('−', ['-']), ('×', ['x']), ('÷', ['/'])]

/-- Embedding of `text.replace(key, repl)` for a single-character
pattern. -/
def replaceChar (s : List Char) (k : Char) (r : List Char) : List Char :=
  s.flatMap fun c => if c = k then r else [c]

/-- The replacement loop of `_sanitize_text`: apply every rule of the
dict in insertion order. -/
def applyReplacements (s : List Char) : List Char :=
  uniReplacements.foldl (fun acc p => replaceChar acc p.1 p.2) s

/-- Characters the modeled html5 tokenizer accepts inside a character
reference name (ASCII alphanumerics and the hash of numeric
references). -/
def isEntChar (c : Char) : Bool :=
  c.isAlphanum || c = '#'

/-- Whether the character after `<` opens a markup token (tag, end tag,
comment or processing instruction) in the modeled html5 tokenizer. -/
def startsTag (rest : List Char) : Bool :=
  match rest with
  | [] => false
  | c :: _ => c.isAlpha || c = '/' || c = '!' || c = '?'

/-- Drop a markup token: everything through the first closing `>`. -/
def skipTag : List Char → List Char
  | [] => []
  | c :: rest => if c = '>' then rest else skipTag rest

/-- The leading character-reference span after an ampersand: a
non-empty run of entity characters immediately closed by a semicolon. -/
def entitySpan (rest : List Char) : Option (List Char × List Char) :=
  let name := rest.takeWhile isEntChar
  if name.isEmpty then none
  else
    match rest.dropWhile isEntChar with
    | ';' :: rest2 => some (name, rest2)
    | _ => none

theorem skipTag_length_le (s : List Char) : (skipTag s).length ≤ s.length := by
  induction s with
  | nil => exact le_refl _
  | cons c rest ih =>
    by_cases h : c = '>'
    · simp [skipTag, h]
    · simp only [skipTag, h, if_neg, Bool.false_eq_true, if_false]
      exact ih.trans (Nat.le_succ _)

theorem entitySpan_length (rest name : List Char) (rest2 : List Char)
    (h : entitySpan rest = some (name, rest2)) : rest2.length < rest.length := by
  unfold entitySpan at h
  by_cases hne : (rest.takeWhile isEntChar).isEmpty
  · simp [hne] at h
  · simp only [hne, Bool.false_eq_true, if_false] at h
    rcases hd : rest.dropWhile isEntChar with _ | ⟨c, rest3⟩
    · rw [hd] at h; simp at h
    · rw [hd] at h
      by_cases hc : c = ';'
      · subst hc
        simp only [Option.some.injEq, Prod.mk.injEq] at h
        obtain ⟨h1, h2⟩ := h
        subst h2
        have hlen : (rest.dropWhile isEntChar).length ≤ rest.length :=
          (List.dropWhile_sublist _).length_le
        rw [hd] at hlen
        simp only [List.length_cons] at hlen
        omega
      · simp [hc] at h

/-- Modeled from the documented behavior of
`bleach.clean(text, tags=[], strip=True)` (bleach 6 with its html5lib
fork): markup tokens are stripped entirely, character references
present in the source are preserved verbatim, and the serializer
re-escapes every bare `&`, `<` and `>` left in text. -/
def bleachClean : List Char → List Char
  | [] => []
  | c :: rest =>
    if c = '<' then
      if startsTag rest then bleachClean (skipTag rest)
      else '&' :: 'l' :: 't' :: ';' :: bleachClean rest
    else if c = '>' then '&' :: 'g' :: 't' :: ';' :: bleachClean rest
    else if c = '&' then
      match h : entitySpan rest with
      | some (name, rest2) => '&' :: (name ++ ';' :: bleachClean rest2)
      | none => '&' :: 'a' :: 'm' :: 'p' :: ';' :: bleachClean rest
    else c :: bleachClean rest
  termination_by s => s.length
  decreasing_by
  · exact Nat.lt_succ_of_le (skipTag_length_le rest)
  · exact Nat.lt_succ_of_le (le_refl _)
  · exact Nat.lt_succ_of_le (le_refl _)
  · exact (entitySpan_length rest name rest2 h).trans (Nat.lt_succ_of_le (le_refl _))
  · exact Nat.lt_succ_of_le (le_refl _)
  · exact Nat.lt_succ_of_le (le_refl _)

/-- Embedding of the whitespace normalization
`re.sub(r"\s+", " ", text)`: every maximal whitespace run becomes one
space. -/
def collapseWS : List Char → List Char
  | [] => []
  | c :: rest =>
    if isPySpace c then ' ' :: collapseWS (rest.dropWhile isPySpace)
    else c :: collapseWS rest
  termination_by s => s.length
  decreasing_by
  · exact Nat.lt_succ_of_le ((List.dropWhile_sublist _).length_le)
  · exact Nat.lt_succ_of_le (le_refl _)

/-- Modeled from `unicodedata.category` on Latin-1 (128..255): the
general category starts with L, M, N, P or S for every character except
the C1 controls 128..159 (Cc), the no-break space 160 (Zs) and the soft
hyphen 173 (Cf). -/
def latin1CatLMNPS (c : Char) : Bool :=
  161 ≤ c.toNat && c.toNat ≠ 173

/-- Modeled from `unicodedata.category` on 256..2000: whether the
general category starts with L or N.  The table is coarse: it excludes
the combining-mark blocks (768..879 Mn, 1155..1161, 1425..1479 Hebrew
points, 1552..1562 and 1611..1631 Arabic marks) and the punctuation of
this range (894, 903, 1370..1375, 1417..1418, 1470, 1472, 1475, 1478,
1523..1524, 1548..1549, 1563..1567), and includes the letter and digit
blocks. -/
def midCatLN (c : Char) : Bool :=
  let n := c.toNat
  !(768 ≤ n && n ≤ 879) && !(1155 ≤ n && n ≤ 1161) &&
  !(1425 ≤ n && n ≤ 1479) && !(1552 ≤ n && n ≤ 1562) &&
  !(1611 ≤ n && n ≤ 1631) &&
  !(n = 894 || n = 903) && !(1370 ≤ n && n ≤ 1375) &&
  !(1417 ≤ n && n ≤ 1418) &&
  !(n = 1470 || n = 1472 || n = 1475 || n = 1478) &&
  !(1523 ≤ n && n ≤ 1524) && !(1548 ≤ n && n ≤ 1549) &&
  !(1563 ≤ n && n ≤ 1567)

/-- Embedding of the `is_allowed_char` filter inside `_sanitize_text`:
ASCII printables always pass, Latin-1 characters pass on the L, M, N, P
and S categories, characters up to code point 2000 pass on L and N
only, everything higher is dropped. -/
def isAllowedChar (c : Char) : Bool :=
  if 32 ≤ c.toNat && c.toNat ≤ 126 then true
  else if 128 ≤ c.toNat && c.toNat ≤ 255 then latin1CatLMNPS c
  else if 256 ≤ c.toNat && c.toNat ≤ 2000 then midCatLN c
  else false

/-- Embedding of `re.sub(r"[�￿]", "", text)`: drop the
replacement characters. -/
def removeBadChars (s : List Char) : List Char :=
  s.filter fun c => !(c = '�' || c = '￿')

/-- Embedding of `_sanitize_text` (the bytes-decoding branch is dead for
string input and the logging is a side effect): empty input short
circuits, then NFKD normalization, the Unicode replacement dict, the
bleach markup strip, whitespace collapsing with strip, the character
filter, replacement-character removal, and a final whitespace
normalization. -/
def sanitizeText (s : List Char) : List Char :=
  if s.isEmpty then []
  else
    let t1 := nfkd s
    let t2 := applyReplacements t1
    let t3 := bleachClean t2
    let t4 := pyStrip (collapseWS t3)
    let t5 := t4.filter isAllowedChar
    let t6 := removeBadChars t5
    pyStrip (collapseWS t6)

/-- The outcome of one classification attempt for one candidate, seen
from `identify_ai_content`: the chat-completion call can raise (network,
auth, JSON decoding, a non-dict payload), the returned content can lack
a JSON object match, or a dict is extracted and parsed. -/
inductive LLMOutcome where
  | raises
  | noJson
  | json (result : PyDict)

/-- Embedding of `result.get(key, default)` narrowed to the string
payloads the enrichment reads; validation guarantees the fields are
strings at every use site. -/
def getStrD (r : PyDict) (k d : List Char) : List Char :=
  match dictGet r k with
  | some (.pyStr s) => s
  | some _ => d
  | none => d

/-- The enrichment `identify_ai_content` applies to a candidate on a
validated relevant response: flag it, attach the sanitized summary
limited to 140 words, and the sanitized tag. -/
def applyClassification (e : Entry) (r : PyDict) : Entry :=
  { e with
    isAiRelated := true
    summary := limitWords (sanitizeText (getStrD r "summary".data [])) 140
    aiTag := sanitizeText (getStrD r "ai_tag".data "AI Research".data) }

/-- One attempt of the stage-2 retry loop: `none` is a failed attempt
(exception, missing JSON, or failed validation) and the loop retries;
`some res` breaks the loop, appending the enriched entry when the
response is relevant and dropping the candidate otherwise. -/
def runAttempt (e : Entry) (o : LLMOutcome) : Option (Option Entry) :=
  match o with
  | .raises => none
  | .noJson => none
  | .json r =>
    if validateAiResponse r then
      some
        (if pyTruthy ((dictGet r "is_ai_related".data).getD (.pyBool false)) then
          some (applyClassification e r)
        else none)
    else none

/-- Whether an attempt outcome is a valid structured response. -/
def validOutcome : LLMOutcome → Bool
  | .json r => validateAiResponse r
  | _ => false

/-- The `for attempt in range(3)` loop of `identify_ai_content` for one
screened candidate, with the service calls modeled as an oracle indexed
by attempt number; returns the appended entry (if any) and the number of
attempts made. -/
def processEntry (e : Entry) (oracle : ℕ → LLMOutcome) : Option Entry × ℕ :=
  match runAttempt e (oracle 0) with
  | some res => (res, 1)
  | none =>
    match runAttempt e (oracle 1) with
    | some res => (res, 2)
    | none =>
      match runAttempt e (oracle 2) with
      | some res => (res, 3)
      | none => (none, 3)

/-- Embedding of `identify_ai_content`: keep the entries that pass the
stage-1 keyword screen, run the bounded retry loop on each survivor,
collect the enriched survivors, and rank the result. -/
noncomputable def identifyAiContent (now : Int) (entries : List Entry)
    (oracle : Entry → ℕ → LLMOutcome) : List Entry :=
  rankArticles now
    ((entries.filter quickAiScreening).filterMap fun e =>
      (processEntry e (oracle e)).1)

theorem runAttempt_none_of_invalid (e : Entry) (o : LLMOutcome)
    (h : validOutcome o = false) : runAttempt e o = none := by
  cases o with
  | raises => rfl
  | noJson => rfl
  | json r =>
    simp only [validOutcome] at h
    simp [runAttempt, h]

theorem processEntry_id (e e2 : Entry) (oracle : ℕ → LLMOutcome)
    (h : (processEntry e oracle).1 = some e2) : e2.id = e.id := by
  have key : ∀ o res, runAttempt e o = some res → res = some e2 → e2.id = e.id := by
    intro o res hro hres
    cases o with
    | raises => simp [runAttempt] at hro
    | noJson => simp [runAttempt] at hro
    | json r =>
      by_cases hv : validateAiResponse r = true
      · simp only [runAttempt, hv, if_pos, Option.some.injEq] at hro
        subst hro
        by_cases ht : pyTruthy ((dictGet r "is_ai_related".data).getD (.pyBool false)) = true
        · rw [if_pos ht] at hres
          have : applyClassification e r = e2 := by
            injection hres
          rw [← this]
          rfl
        · simp only [ht, Bool.false_eq_true, if_false] at hres
          exact absurd hres (by simp)
      · simp only [runAttempt, hv] at hro
        simp at hro
  unfold processEntry at h
  rcases h0 : runAttempt e (oracle 0) with _ | res0
  · rw [h0] at h
    rcases h1 : runAttempt e (oracle 1) with _ | res1
    · rw [h1] at h
      rcases h2 : runAttempt e (oracle 2) with _ | res2
      · rw [h2] at h; simp at h
      · rw [h2] at h
        simp only at h
        exact key (oracle 2) res2 h2 h
    · rw [h1] at h
      simp only at h
      exact key (oracle 1) res1 h1 h
  · rw [h0] at h
    simp only at h
    exact key (oracle 0) res0 h0 h

/-- C2: for every screened candidate the classifier makes at most three
attempts; when every attempt is invalid or throws, the candidate yields
nothing and, provided entry ids are unique, no entry with its id appears
in the list `identify_ai_content` returns (while the remaining
candidates are still processed into the returned ranking); and the
first valid attempt ends the retrying immediately. -/
theorem C2_classifier_retry_bound (e : Entry) (oracle : ℕ → LLMOutcome) :
    (processEntry e oracle).2 ≤ 3 ∧
    ((∀ i, i < 3 → validOutcome (oracle i) = false) →
      (processEntry e oracle).1 = none) ∧
    (∀ i, i < 3 → validOutcome (oracle i) = true →
      (∀ j, j < i → validOutcome (oracle j) = false) →
      (processEntry e oracle).2 = i + 1) ∧
    (∀ (now : Int) (entries : List Entry) (oracleF : Entry → ℕ → LLMOutcome),
      e ∈ entries →
      (∀ i, i < 3 → validOutcome (oracleF e i) = false) →
      (∀ e2 ∈ entries, e2.id = e.id → e2 = e) →
      ∀ e2 ∈ identifyAiContent now entries oracleF, e2.id ≠ e.id) := by
  refine ⟨?_, ?_, ?_, ?_⟩
  · unfold processEntry
    rcases runAttempt e (oracle 0) with _ | res0
    · rcases runAttempt e (oracle 1) with _ | res1
      · rcases runAttempt e (oracle 2) with _ | res2 <;> simp
      · simp
    · simp
  · intro hall
    have h0 := runAttempt_none_of_invalid e (oracle 0) (hall 0 (by omega))
    have h1 := runAttempt_none_of_invalid e (oracle 1) (hall 1 (by omega))
    have h2 := runAttempt_none_of_invalid e (oracle 2) (hall 2 (by omega))
    simp [processEntry, h0, h1, h2]
  · intro i hi hvalid hbefore
    have hsome : ∀ j, validOutcome (oracle j) = true →
        ∃ res, runAttempt e (oracle j) = some res := by
      intro j hj
      cases ho : oracle j with
      | raises => rw [ho] at hj; simp [validOutcome] at hj
      | noJson => rw [ho] at hj; simp [validOutcome] at hj
      | json r =>
        rw [ho] at hj
        simp only [validOutcome] at hj
        refine ⟨if pyTruthy ((dictGet r "is_ai_related".data).getD
            (.pyBool false)) then some (applyClassification e r)
          else none, ?_⟩
        simp [runAttempt, hj]
    interval_cases i
    · rcases hsome 0 hvalid with ⟨res, hres⟩
      simp [processEntry, hres]
    · have h0 := runAttempt_none_of_invalid e (oracle 0) (hbefore 0 (by omega))
      rcases hsome 1 hvalid with ⟨res, hres⟩
      simp [processEntry, h0, hres]
    · have h0 := runAttempt_none_of_invalid e (oracle 0) (hbefore 0 (by omega))
      have h1 := runAttempt_none_of_invalid e (oracle 1) (hbefore 1 (by omega))
      rcases hsome 2 hvalid with ⟨res, hres⟩
      simp [processEntry, h0, h1, hres]
  · intro now entries oracleF hmem hall huniq e2 he2 heq
    have hperm :=
      (stableSortDesc_loop (rankingScore now)
        ((entries.filter quickAiScreening).filterMap fun x =>
          (processEntry x (oracleF x)).1) [] (by simp)).1
    have he2m : e2 ∈ (entries.filter quickAiScreening).filterMap fun x =>
        (processEntry x (oracleF x)).1 := by
      have := hperm.mem_iff.mp (by simpa [identifyAiContent, rankArticles, stableSortDesc] using he2)
      simpa using this
    rcases List.mem_filterMap.mp he2m with ⟨e3, he3, hproc⟩
    have hid : e3.id = e.id := by
      rw [← heq]
      exact (processEntry_id e3 e2 (oracleF e3) hproc).symm
    have he3mem : e3 ∈ entries := List.mem_of_mem_filter he3
    have he3e : e3 = e := huniq e3 he3mem hid
    subst he3e
    have hnone : (processEntry e3 (oracleF e3)).1 = none := by
      have h0 := runAttempt_none_of_invalid e3 (oracleF e3 0) (hall 0 (by omega))
      have h1 := runAttempt_none_of_invalid e3 (oracleF e3 1) (hall 1 (by omega))
      have h2 := runAttempt_none_of_invalid e3 (oracleF e3 2) (hall 2 (by omega))
      simp [processEntry, h0, h1, h2]
    rw [hnone] at hproc
    exact absurd hproc (by simp)

/-- A screened candidate used by the retry witness. -/
def c2Entry : Entry :=
  { id := "c2w".data, title := "ai ".data
    description := "clinical trial".data, link := [], pubDate := none }

/-- A structured response that passes validation. -/
def c2ValidPayload : PyDict :=
  [("is_ai_related".data, .pyBool true),
   ("summary".data, .pyStr "a fine summary of the work".data),
   ("ai_tag".data, .pyStr "Generative AI".data)]

/-- C2 witness: the retry theorem applied to a concrete candidate with
an always-raising oracle (the candidate yields nothing and its id is
absent from the returned list) and to a first-attempt-valid oracle (one
attempt is made). -/
theorem C2_classifier_retry_bound_witness :
    (processEntry c2Entry (fun _ => LLMOutcome.raises)).1 = none ∧
    (processEntry c2Entry (fun _ => LLMOutcome.json c2ValidPayload)).2 = 0 + 1 ∧
    (∀ e2 ∈ identifyAiContent 0 [c2Entry] (fun _ _ => LLMOutcome.raises),
      e2.id ≠ c2Entry.id) :=
  ⟨(C2_classifier_retry_bound c2Entry (fun _ => LLMOutcome.raises)).2.1
      (fun i _ => rfl),
   (C2_classifier_retry_bound c2Entry
        (fun _ => LLMOutcome.json c2ValidPayload)).2.2.1 0 (by omega)
      (by decide) (fun j hj => absurd hj (Nat.not_lt_zero j)),
   (C2_classifier_retry_bound c2Entry (fun _ => LLMOutcome.raises)).2.2.2 0
      [c2Entry] (fun _ _ => LLMOutcome.raises) (List.mem_singleton.mpr rfl)
      (fun i _ => rfl)
      (fun e2 he2 _ => List.mem_singleton.mp he2)⟩

theorem collapseWS_nil : collapseWS [] = [] := by
  rw [collapseWS]

theorem collapseWS_cons_space (c : Char) (rest : List Char)
    (hc : isPySpace c = true) :
    collapseWS (c :: rest) = ' ' :: collapseWS (rest.dropWhile isPySpace) := by
  rw [collapseWS, if_pos hc]

theorem collapseWS_cons_other (c : Char) (rest : List Char)
    (hc : isPySpace c = false) :
    collapseWS (c :: rest) = c :: collapseWS rest := by
  rw [collapseWS, if_neg (by simp [hc])]

theorem mem_collapseWS (s : List Char) (c : Char) (hc : c ∈ collapseWS s) :
    c ∈ s ∨ c = ' ' := by
  have H : ∀ (n : ℕ) (s : List Char), s.length = n →
      ∀ c, c ∈ collapseWS s → c ∈ s ∨ c = ' ' := by
    intro n
    induction n using Nat.strong_induction_on with
    | _ n ih =>
      intro s hs c hc
      cases s with
      | nil => rw [collapseWS_nil] at hc; simp at hc
      | cons d rest =>
        by_cases hd : isPySpace d = true
        · rw [collapseWS_cons_space d rest hd] at hc
          rcases List.mem_cons.mp hc with rfl | hc2
          · right; rfl
          · have hlen : (rest.dropWhile isPySpace).length < n := by
              have := (List.dropWhile_sublist (l := rest) isPySpace).length_le
              simp only [← hs, List.length_cons]
              omega
            rcases ih _ hlen _ rfl _ hc2 with h | h
            · left
              exact List.mem_cons_of_mem _ ((List.dropWhile_sublist _).subset h)
            · right; exact h
        · rw [collapseWS_cons_other d rest (by simpa using hd)] at hc
          rcases List.mem_cons.mp hc with rfl | hc2
          · left; exact List.mem_cons_self _ _
          · have hlen : rest.length < n := by
              simp only [← hs, List.length_cons]
              omega
            rcases ih _ hlen _ rfl _ hc2 with h | h
            · left; exact List.mem_cons_of_mem _ h
            · right; exact h
  exact H s.length s rfl c hc

theorem mem_dropTrailingWS (s : List Char) (c : Char)
    (hc : c ∈ dropTrailingWS s) : c ∈ s := by
  induction s with
  | nil => simpa [dropTrailingWS] using hc
  | cons d rest ih =>
    simp only [dropTrailingWS] at hc
    by_cases h : (dropTrailingWS rest).isEmpty && isPySpace d
    · rw [if_pos h] at hc; simp at hc
    · rw [if_neg h] at hc
      rcases List.mem_cons.mp hc with rfl | hc2
      · exact List.mem_cons_self _ _
      · exact List.mem_cons_of_mem _ (ih hc2)

theorem mem_pyStrip (s : List Char) (c : Char) (hc : c ∈ pyStrip s) :
    c ∈ s := by
  unfold pyStrip at hc
  exact (List.dropWhile_sublist _).subset (mem_dropTrailingWS _ c hc)

/-- Tidy whitespace: every whitespace character is a plain space and is
not followed by another whitespace character. -/
def tidyWS : List Char → Bool
  | [] => true
  | c :: rest =>
    if isPySpace c then
      (c = ' ') &&
      (match rest with
       | [] => true
       | d :: _ => !isPySpace d) && tidyWS rest
    else tidyWS rest

theorem collapseWS_head_not_space (y : List Char)
    (hy : ∀ d, y.head? = some d → isPySpace d = false) :
    ∀ d, (collapseWS y).head? = some d → isPySpace d = false := by
  cases y with
  | nil => intro d hd; rw [collapseWS_nil] at hd; simp at hd
  | cons c rest =>
    intro d hd
    have hc : isPySpace c = false := hy c rfl
    rw [collapseWS_cons_other c rest hc] at hd
    simp only [List.head?_cons, Option.some.injEq] at hd
    exact hd ▸ hc

theorem dropWhile_head_not_space (y : List Char) :
    ∀ d, (y.dropWhile isPySpace).head? = some d → isPySpace d = false := by
  induction y with
  | nil => intro d hd; simp at hd
  | cons c rest ih =>
    intro d hd
    by_cases hc : isPySpace c = true
    · rw [List.dropWhile_cons_of_pos hc] at hd
      exact ih d hd
    · rw [List.dropWhile_cons_of_neg hc] at hd
      simp only [List.head?_cons, Option.some.injEq] at hd
      subst hd
      simpa using hc

theorem tidyWS_collapseWS (x : List Char) : tidyWS (collapseWS x) = true := by
  have H : ∀ (n : ℕ) (x : List Char), x.length = n →
      tidyWS (collapseWS x) = true := by
    intro n
    induction n using Nat.strong_induction_on with
    | _ n ih =>
      intro x hs
      cases x with
      | nil => rw [collapseWS_nil]; rfl
      | cons c rest =>
        by_cases hc : isPySpace c = true
        · rw [collapseWS_cons_space c rest hc]
          have hlen : (rest.dropWhile isPySpace).length < n := by
            have := (List.dropWhile_sublist (l := rest) isPySpace).length_le
            simp only [← hs, List.length_cons]
            omega
          have htail := ih _ hlen (rest.dropWhile isPySpace) rfl
          have hhead := collapseWS_head_not_space (rest.dropWhile isPySpace)
            (dropWhile_head_not_space rest)
          simp only [tidyWS, if_pos (by decide : isPySpace ' ' = true)]
          rcases hcol : collapseWS (rest.dropWhile isPySpace) with _ | ⟨d, t⟩
          · rfl
          · have hd : isPySpace d = false := hhead d (by rw [hcol]; rfl)
            rw [hcol] at htail
            simp [hd, htail]
        · have hc2 : isPySpace c = false := by simpa using hc
          rw [collapseWS_cons_other c rest hc2]
          have hlen : rest.length < n := by
            simp only [← hs, List.length_cons]
            omega
          have htail := ih _ hlen rest rfl
          simp [tidyWS, hc2, htail]
  exact H x.length x rfl

theorem tidyWS_dropWhile (s : List Char) (h : tidyWS s = true) :
    tidyWS (s.dropWhile isPySpace) = true := by
  induction s with
  | nil => simpa using h
  | cons c rest ih =>
    by_cases hc : isPySpace c = true
    · rw [List.dropWhile_cons_of_pos hc]
      simp only [tidyWS, if_pos hc, Bool.and_eq_true] at h
      exact ih h.2
    · rwa [List.dropWhile_cons_of_neg hc]

theorem dropTrailingWS_head (s : List Char) (d : Char)
    (hd : (dropTrailingWS s).head? = some d) : s.head? = some d := by
  cases s with
  | nil => simpa [dropTrailingWS] using hd
  | cons c rest =>
    simp only [dropTrailingWS] at hd
    by_cases h : (dropTrailingWS rest).isEmpty && isPySpace c
    · rw [if_pos h] at hd; simp at hd
    · rw [if_neg h] at hd
      simpa using hd

theorem tidyWS_dropTrailingWS (s : List Char) (h : tidyWS s = true) :
    tidyWS (dropTrailingWS s) = true := by
  induction s with
  | nil => simpa [dropTrailingWS] using h
  | cons c rest ih =>
    simp only [dropTrailingWS]
    by_cases hcase : (dropTrailingWS rest).isEmpty && isPySpace c
    · rw [if_pos hcase]; rfl
    · rw [if_neg hcase]
      by_cases hc : isPySpace c = true
      · simp only [tidyWS, if_pos hc, Bool.and_eq_true] at h
        obtain ⟨⟨hsp, hnext⟩, htail⟩ := h
        have htail2 := ih htail
        simp only [tidyWS, if_pos hc, Bool.and_eq_true]
        refine ⟨⟨hsp, ?_⟩, htail2⟩
        rcases hdtw : dropTrailingWS rest with _ | ⟨d, t⟩
        · simp
        · have hd := dropTrailingWS_head rest d (by rw [hdtw]; rfl)
          cases rest with
          | nil => simp [dropTrailingWS] at hdtw
          | cons e t2 =>
            simp only [List.head?_cons, Option.some.injEq] at hd
            subst hd
            simpa using hnext
      · have hc2 : isPySpace c = false := by simpa using hc
        simp only [tidyWS, hc2, Bool.false_eq_true, if_false] at h ⊢
        exact ih h

theorem tidyWS_pyStrip (s : List Char) (h : tidyWS s = true) :
    tidyWS (pyStrip s) = true :=
  tidyWS_dropTrailingWS _ (tidyWS_dropWhile s h)

theorem collapseWS_of_tidy (s : List Char) (h : tidyWS s = true) :
    collapseWS s = s := by
  induction s with
  | nil => exact collapseWS_nil
  | cons c rest ih =>
    by_cases hc : isPySpace c = true
    · simp only [tidyWS, if_pos hc, Bool.and_eq_true] at h
      obtain ⟨⟨hsp, hnext⟩, htail⟩ := h
      have hsp2 : c = ' ' := by simpa using hsp
      rw [collapseWS_cons_space c rest hc]
      have hdrop : rest.dropWhile isPySpace = rest := by
        cases rest with
        | nil => rfl
        | cons d t =>
          have hd : isPySpace d = false := by simpa using hnext
          rw [List.dropWhile_cons_of_neg (by simp [hd])]
      rw [hdrop, ih htail, hsp2]
    · have hc2 : isPySpace c = false := by simpa using hc
      simp only [tidyWS, hc2, Bool.false_eq_true, if_false] at h
      rw [collapseWS_cons_other c rest hc2, ih h]

theorem dropTrailingWS_idem (s : List Char) :
    dropTrailingWS (dropTrailingWS s) = dropTrailingWS s := by
  induction s with
  | nil => rfl
  | cons c rest ih =>
    simp only [dropTrailingWS]
    by_cases hcase : (dropTrailingWS rest).isEmpty && isPySpace c
    · rw [if_pos hcase]; rfl
    · rw [if_neg hcase]
      simp only [dropTrailingWS, ih]
      rw [if_neg hcase]

theorem pyStrip_idem (s : List Char) : pyStrip (pyStrip s) = pyStrip s := by
  unfold pyStrip
  have hdrop : (dropTrailingWS (s.dropWhile isPySpace)).dropWhile isPySpace =
      dropTrailingWS (s.dropWhile isPySpace) := by
    rcases hdtw : dropTrailingWS (s.dropWhile isPySpace) with _ | ⟨d, t⟩
    · rfl
    · have hd := dropTrailingWS_head (s.dropWhile isPySpace) d (by rw [hdtw]; rfl)
      have hd2 := dropWhile_head_not_space s d hd
      rw [List.dropWhile_cons_of_neg (by simp [hd2])]
  rw [hdrop, dropTrailingWS_idem]

theorem stripCollapse_idem (x : List Char) :
    pyStrip (collapseWS (pyStrip (collapseWS x))) = pyStrip (collapseWS x) := by
  have htidy : tidyWS (pyStrip (collapseWS x)) = true :=
    tidyWS_pyStrip _ (tidyWS_collapseWS x)
  rw [collapseWS_of_tidy _ htidy, pyStrip_idem]

theorem alnum_ascii (c : Char) (h : c.isAlphanum = true) :
    32 ≤ c.toNat ∧ c.toNat ≤ 126 := by
  unfold Char.isAlphanum Char.isAlpha Char.isUpper Char.isLower Char.isDigit at h
  simp only [Bool.or_eq_true, Bool.and_eq_true, decide_eq_true_eq, ge_iff_le] at h
  rcases h with (⟨h1, h2⟩ | ⟨h1, h2⟩) | ⟨h1, h2⟩
  · have ha : (65 : ℕ) ≤ c.toNat := UInt32.le_toNat_of_le (by norm_num) h1
    have hb : c.toNat ≤ (90 : ℕ) := UInt32.toNat_le_of_le (by norm_num) h2
    omega
  · have ha : (97 : ℕ) ≤ c.toNat := UInt32.le_toNat_of_le (by norm_num) h1
    have hb : c.toNat ≤ (122 : ℕ) := UInt32.toNat_le_of_le (by norm_num) h2
    omega
  · have ha : (48 : ℕ) ≤ c.toNat := UInt32.le_toNat_of_le (by norm_num) h1
    have hb : c.toNat ≤ (57 : ℕ) := UInt32.toNat_le_of_le (by norm_num) h2
    omega

theorem entChar_ascii (c : Char) (h : isEntChar c = true) :
    32 ≤ c.toNat ∧ c.toNat ≤ 126 := by
  simp only [isEntChar, Bool.or_eq_true, decide_eq_true_eq] at h
  rcases h with h | rfl
  · exact alnum_ascii c h
  · decide

theorem entChar_not_space (c : Char) (h : isEntChar c = true) :
    isPySpace c = false := by
  by_contra hsp
  have hsp2 : isPySpace c = true := by simpa using hsp
  simp only [isPySpace, Bool.or_eq_true, decide_eq_true_eq] at hsp2
  rcases hsp2 with ((((((((((rfl | rfl) | rfl) | rfl) | rfl) | rfl) | rfl) |
    rfl) | rfl) | rfl) | rfl) <;>
    exact absurd h (by decide)

theorem takeWhile_entity (name t : List Char)
    (h : ∀ c ∈ name, isEntChar c = true) :
    (name ++ ';' :: t).takeWhile isEntChar = name := by
  induction name with
  | nil =>
    simp only [List.nil_append]
    rw [List.takeWhile_cons_of_neg (by decide)]
  | cons c rest ih =>
    rw [List.cons_append,
      List.takeWhile_cons_of_pos (h c (List.mem_cons_self _ _)),
      ih fun d hd => h d (List.mem_cons_of_mem _ hd)]

theorem dropWhile_entity (name t : List Char)
    (h : ∀ c ∈ name, isEntChar c = true) :
    (name ++ ';' :: t).dropWhile isEntChar = ';' :: t := by
  induction name with
  | nil =>
    simp only [List.nil_append]
    rw [List.dropWhile_cons_of_neg (by decide)]
  | cons c rest ih =>
    rw [List.cons_append,
      List.dropWhile_cons_of_pos (h c (List.mem_cons_self _ _)),
      ih fun d hd => h d (List.mem_cons_of_mem _ hd)]

theorem entitySpan_of_spec (name t : List Char) (hne : name ≠ [])
    (hall : ∀ c ∈ name, isEntChar c = true) :
    entitySpan (name ++ ';' :: t) = some (name, t) := by
  unfold entitySpan
  rw [takeWhile_entity name t hall, dropWhile_entity name t hall]
  simp [hne]

theorem entitySpan_spec (rest name rest2 : List Char)
    (h : entitySpan rest = some (name, rest2)) :
    name ≠ [] ∧ (∀ c ∈ name, isEntChar c = true) ∧
      rest = name ++ ';' :: rest2 := by
  unfold entitySpan at h
  by_cases hne : (rest.takeWhile isEntChar).isEmpty
  · simp [hne] at h
  · simp only [hne, Bool.false_eq_true, if_false] at h
    rcases hd : rest.dropWhile isEntChar with _ | ⟨c, rest3⟩
    · rw [hd] at h; simp at h
    · rw [hd] at h
      by_cases hc : c = ';'
      · subst hc
        simp only [Option.some.injEq, Prod.mk.injEq] at h
        obtain ⟨h1, h2⟩ := h
        subst h1
        subst h2
        refine ⟨by simpa using hne, fun c hc => List.mem_takeWhile_imp hc, ?_⟩
        conv_lhs => rw [← List.takeWhile_append_dropWhile (p := isEntChar) (l := rest)]
        rw [hd]
      · simp [hc] at h

theorem bleachClean_nil : bleachClean [] = [] := by
  rw [bleachClean]

theorem bleachClean_cons_lt_tag (rest : List Char) (h : startsTag rest = true) :
    bleachClean ('<' :: rest) = bleachClean (skipTag rest) := by
  rw [bleachClean, if_pos rfl, if_pos h]

theorem bleachClean_cons_lt_text (rest : List Char)
    (h : startsTag rest = false) :
    bleachClean ('<' :: rest) = '&' :: 'l' :: 't' :: ';' :: bleachClean rest := by
  rw [bleachClean, if_pos rfl, if_neg (by simp [h])]

theorem bleachClean_cons_gt (rest : List Char) :
    bleachClean ('>' :: rest) = '&' :: 'g' :: 't' :: ';' :: bleachClean rest := by
  rw [bleachClean, if_neg (by decide), if_pos rfl]

theorem bleachClean_cons_amp_ent (rest name rest2 : List Char)
    (h : entitySpan rest = some (name, rest2)) :
    bleachClean ('&' :: rest) = '&' :: (name ++ ';' :: bleachClean rest2) := by
  rw [bleachClean, if_neg (by decide), if_neg (by decide), if_pos rfl]
  split
  · rename_i name2 rest3 heq
    rw [h] at heq
    injection heq with heq2
    injection heq2 with ha hb
    subst ha
    subst hb
    rfl
  · rename_i heq
    rw [h] at heq
    exact absurd heq (by simp)

theorem bleachClean_cons_amp_none (rest : List Char)
    (h : entitySpan rest = none) :
    bleachClean ('&' :: rest) =
      '&' :: 'a' :: 'm' :: 'p' :: ';' :: bleachClean rest := by
  rw [bleachClean, if_neg (by decide), if_neg (by decide), if_pos rfl]
  split
  · rename_i name2 rest3 heq
    rw [h] at heq
    exact absurd heq (by simp)
  · rfl

theorem bleachClean_cons_plain (c : Char) (rest : List Char)
    (h1 : c ≠ '<') (h2 : c ≠ '>') (h3 : c ≠ '&') :
    bleachClean (c :: rest) = c :: bleachClean rest := by
  rw [bleachClean, if_neg (by simp [h1]), if_neg (by simp [h2]),
    if_neg (by simp [h3])]

/-- Strings in which every ampersand opens a verbatim character
reference and no angle bracket occurs: the shape of bleach output, under
which the modeled bleach pass is the identity. -/
inductive GoodAmp : List Char → Prop
  | nil : GoodAmp []
  | plain (c : Char) (rest : List Char) : c ≠ '<' → c ≠ '>' → c ≠ '&' →
      GoodAmp rest → GoodAmp (c :: rest)
  | ent (name rest : List Char) : name ≠ [] →
      (∀ c ∈ name, isEntChar c = true) → GoodAmp rest →
      GoodAmp ('&' :: (name ++ ';' :: rest))

theorem goodAmp_bleachClean (s : List Char) : GoodAmp (bleachClean s) := by
  have H : ∀ (n : ℕ) (s : List Char), s.length = n → GoodAmp (bleachClean s) := by
    intro n
    induction n using Nat.strong_induction_on with
    | _ n ih =>
      intro s hs
      cases s with
      | nil => rw [bleachClean_nil]; exact GoodAmp.nil
      | cons c rest =>
        by_cases hlt : c = '<'
        · subst hlt
          by_cases htag : startsTag rest = true
          · rw [bleachClean_cons_lt_tag rest htag]
            refine ih (skipTag rest).length ?_ _ rfl
            have := skipTag_length_le rest
            simp only [← hs, List.length_cons]
            omega
          · rw [bleachClean_cons_lt_text rest (by simpa using htag)]
            have hrec : GoodAmp (bleachClean rest) := by
              refine ih rest.length ?_ _ rfl
              simp only [← hs, List.length_cons]
              omega
            exact GoodAmp.ent ['l', 't'] (bleachClean rest) (by simp)
              (by decide) hrec
        · by_cases hgt : c = '>'
          · subst hgt
            rw [bleachClean_cons_gt rest]
            have hrec : GoodAmp (bleachClean rest) := by
              refine ih rest.length ?_ _ rfl
              simp only [← hs, List.length_cons]
              omega
            exact GoodAmp.ent ['g', 't'] (bleachClean rest) (by simp)
              (by decide) hrec
          · by_cases hamp : c = '&'
            · subst hamp
              rcases hent : entitySpan rest with _ | ⟨name, rest2⟩
              · rw [bleachClean_cons_amp_none rest hent]
                have hrec : GoodAmp (bleachClean rest) := by
                  refine ih rest.length ?_ _ rfl
                  simp only [← hs, List.length_cons]
                  omega
                exact GoodAmp.ent ['a', 'm', 'p'] (bleachClean rest) (by simp)
                  (by decide) hrec
              · rw [bleachClean_cons_amp_ent rest name rest2 hent]
                obtain ⟨hne, hall, _⟩ := entitySpan_spec rest name rest2 hent
                have hrec : GoodAmp (bleachClean rest2) := by
                  refine ih rest2.length ?_ _ rfl
                  have := entitySpan_length rest name rest2 hent
                  simp only [← hs, List.length_cons]
                  omega
                exact GoodAmp.ent name (bleachClean rest2) hne hall hrec
            · rw [bleachClean_cons_plain c rest hlt hgt hamp]
              have hrec : GoodAmp (bleachClean rest) := by
                refine ih rest.length ?_ _ rfl
                simp only [← hs, List.length_cons]
                omega
              exact GoodAmp.plain c (bleachClean rest) hlt hgt hamp hrec
  exact H s.length s rfl

theorem bleachClean_of_goodAmp (s : List Char) (h : GoodAmp s) :
    bleachClean s = s := by
  induction h with
  | nil => exact bleachClean_nil
  | plain c rest h1 h2 h3 _ ih =>
    rw [bleachClean_cons_plain c rest h1 h2 h3, ih]
  | ent name rest hne hall _ ih =>
    rw [bleachClean_cons_amp_ent (name ++ ';' :: rest) name rest
      (entitySpan_of_spec name rest hne hall), ih]

theorem goodAmp_dropWhileWS (s : List Char) (h : GoodAmp s) :
    GoodAmp (s.dropWhile isPySpace) := by
  induction h with
  | nil => exact GoodAmp.nil
  | plain c rest h1 h2 h3 h4 ih =>
    by_cases hc : isPySpace c = true
    · rw [List.dropWhile_cons_of_pos hc]
      exact ih
    · rw [List.dropWhile_cons_of_neg hc]
      exact GoodAmp.plain c rest h1 h2 h3 h4
  | ent name rest hne hall h4 _ =>
    rw [List.dropWhile_cons_of_neg (by decide)]
    exact GoodAmp.ent name rest hne hall h4

theorem collapseWS_entseg (name t : List Char)
    (hall : ∀ c ∈ name, isEntChar c = true) :
    collapseWS (name ++ ';' :: t) = name ++ ';' :: collapseWS t := by
  induction name with
  | nil =>
    simp only [List.nil_append]
    rw [collapseWS_cons_other ';' t (by decide)]
  | cons c rest ih =>
    rw [List.cons_append, collapseWS_cons_other c _
      (entChar_not_space c (hall c (List.mem_cons_self _ _))),
      ih fun d hd => hall d (List.mem_cons_of_mem _ hd)]
    rfl

theorem goodAmp_collapseWS (s : List Char) (h : GoodAmp s) :
    GoodAmp (collapseWS s) := by
  have H : ∀ (n : ℕ) (s : List Char), s.length = n → GoodAmp s →
      GoodAmp (collapseWS s) := by
    intro n
    induction n using Nat.strong_induction_on with
    | _ n ih =>
      intro s hs hGA
      cases hGA with
      | nil => rw [collapseWS_nil]; exact GoodAmp.nil
      | plain c rest h1 h2 h3 h4 =>
        by_cases hc : isPySpace c = true
        · rw [collapseWS_cons_space c rest hc]
          have hrec : GoodAmp (collapseWS (rest.dropWhile isPySpace)) := by
            refine ih (rest.dropWhile isPySpace).length ?_ _ rfl
              (goodAmp_dropWhileWS rest h4)
            have := (List.dropWhile_sublist (l := rest) isPySpace).length_le
            simp only [← hs, List.length_cons]
            omega
          exact GoodAmp.plain ' ' _ (by decide) (by decide) (by decide) hrec
        · rw [collapseWS_cons_other c rest (by simpa using hc)]
          have hrec : GoodAmp (collapseWS rest) := by
            refine ih rest.length ?_ _ rfl h4
            simp only [← hs, List.length_cons]
            omega
          exact GoodAmp.plain c _ h1 h2 h3 hrec
      | ent name rest hne hall h4 =>
        rw [collapseWS_cons_other '&' _ (by decide),
          collapseWS_entseg name rest hall]
        have hrec : GoodAmp (collapseWS rest) := by
          refine ih rest.length ?_ _ rfl h4
          simp only [← hs, List.length_cons, List.length_append]
          omega
        exact GoodAmp.ent name _ hne hall hrec
  exact H s.length s rfl h

theorem dropTrailingWS_entseg (name t : List Char) :
    dropTrailingWS (name ++ ';' :: t) = name ++ ';' :: dropTrailingWS t := by
  induction name with
  | nil =>
    simp only [List.nil_append, dropTrailingWS]
    rw [if_neg (by simp [isPySpace])]
  | cons c rest ih =>
    rw [List.cons_append]
    simp only [dropTrailingWS, ih]
    rw [if_neg (by simp)]
    rfl

theorem goodAmp_dropTrailingWS (s : List Char) (h : GoodAmp s) :
    GoodAmp (dropTrailingWS s) := by
  induction h with
  | nil => exact GoodAmp.nil
  | plain c rest h1 h2 h3 _ ih =>
    simp only [dropTrailingWS]
    by_cases hcase : (dropTrailingWS rest).isEmpty && isPySpace c
    · rw [if_pos hcase]
      exact GoodAmp.nil
    · rw [if_neg hcase]
      exact GoodAmp.plain c _ h1 h2 h3 ih
  | ent name rest hne hall _ ih =>
    show GoodAmp (dropTrailingWS ('&' :: (name ++ ';' :: rest)))
    simp only [dropTrailingWS, dropTrailingWS_entseg]
    rw [if_neg (by simp [isPySpace])]
    exact GoodAmp.ent name _ hne hall ih

theorem filter_entseg (p : Char → Bool) (name t : List Char)
    (hall : ∀ c ∈ name, p c = true) (hsemi : p ';' = true) :
    (name ++ ';' :: t).filter p = name ++ ';' :: t.filter p := by
  rw [List.filter_append, List.filter_eq_self.mpr hall,
    List.filter_cons_of_pos hsemi]

theorem goodAmp_filter (p : Char → Bool)
    (hent : ∀ c, isEntChar c = true → p c = true)
    (hsemi : p ';' = true) (hamp : p '&' = true)
    (s : List Char) (h : GoodAmp s) : GoodAmp (s.filter p) := by
  induction h with
  | nil => exact GoodAmp.nil
  | plain c rest h1 h2 h3 _ ih =>
    by_cases hc : p c = true
    · rw [List.filter_cons_of_pos hc]
      exact GoodAmp.plain c _ h1 h2 h3 ih
    · rw [List.filter_cons_of_neg (by simpa using hc)]
      exact ih
  | ent name rest hne hall _ ih =>
    rw [List.filter_cons_of_pos hamp,
      filter_entseg p name rest (fun c hc => hent c (hall c hc)) hsemi]
    exact GoodAmp.ent name _ hne hall ih

theorem entChar_allowed (c : Char) (h : isEntChar c = true) :
    isAllowedChar c = true := by
  obtain ⟨h1, h2⟩ := entChar_ascii c h
  simp [isAllowedChar, h1, h2]

theorem entChar_not_bad (c : Char) (h : isEntChar c = true) :
    (!(c = '�' || c = '￿')) = true := by
  obtain ⟨h1, h2⟩ := entChar_ascii c h
  have hf1 : c ≠ '�' := by
    intro hc; subst hc; simp [Char.toNat] at h2
    exact absurd h2 (by decide)
  have hf2 : c ≠ '￿' := by
    intro hc; subst hc; simp [Char.toNat] at h2
    exact absurd h2 (by decide)
  simp [hf1, hf2]

theorem nfkd_targets_stable :
    ∀ q ∈ nfkdTable, ∀ c ∈ q.2, ∀ r ∈ nfkdTable, (r.1 == c) = false := by
  decide

theorem nfkdChar_of_no_key (c : Char)
    (h : ∀ r ∈ nfkdTable, (r.1 == c) = false) : nfkdChar c = [c] := by
  unfold nfkdChar
  rw [List.find?_eq_none.mpr (by intro p hp; simp [h p hp])]

theorem nfkdChar_stable_target (d c : Char) (hc : c ∈ nfkdChar d) :
    nfkdChar c = [c] := by
  unfold nfkdChar at hc
  rcases hf : nfkdTable.find? (fun p => p.1 == d) with _ | p
  · rw [hf] at hc
    simp only [List.mem_singleton] at hc
    subst hc
    exact nfkdChar_of_no_key c (by
      intro r hr
      by_contra hcon
      have hcon2 : (r.1 == c) = true := by
        cases hb : (r.1 == c)
        · exact absurd hb hcon
        · rfl
      have : nfkdTable.find? (fun p => p.1 == c) ≠ none := by
        intro hnone
        rw [List.find?_eq_none] at hnone
        exact absurd hcon2 (by simpa using hnone r hr)
      rcases hg : nfkdTable.find? (fun p => p.1 == c) with _ | p2
      · exact absurd hg this
      · exact absurd hg (by rw [hf]; simp))
  · rw [hf] at hc
    have hp : p ∈ nfkdTable := List.mem_of_find?_eq_some hf
    exact nfkdChar_of_no_key c (nfkd_targets_stable p hp c hc)

theorem mem_nfkd (s : List Char) (c : Char) (hc : c ∈ nfkd s) :
    ∃ d ∈ s, c ∈ nfkdChar d := by
  unfold nfkd at hc
  exact List.mem_flatMap.mp hc

theorem nfkd_fixed (s : List Char) (h : ∀ c ∈ s, nfkdChar c = [c]) :
    nfkd s = s := by
  unfold nfkd
  induction s with
  | nil => rfl
  | cons c rest ih =>
    rw [List.flatMap_cons, h c (List.mem_cons_self _ _),
      ih fun d hd => h d (List.mem_cons_of_mem _ hd)]
    rfl

theorem mem_replaceChar (s : List Char) (k : Char) (r : List Char)
    (c : Char) (hc : c ∈ replaceChar s k r) : c ∈ s ∨ c ∈ r := by
  unfold replaceChar at hc
  rcases List.mem_flatMap.mp hc with ⟨d, hd, hcin⟩
  by_cases hdk : d = k
  · rw [if_pos hdk] at hcin
    right; exact hcin
  · rw [if_neg hdk] at hcin
    simp only [List.mem_singleton] at hcin
    subst hcin
    left; exact hd

theorem replaceChar_self (s : List Char) (k : Char) :
    replaceChar s k [k] = s := by
  unfold replaceChar
  induction s with
  | nil => rfl
  | cons c rest ih =>
    rw [List.flatMap_cons, ih]
    by_cases hck : c = k
    · rw [if_pos hck, hck]; rfl
    · rw [if_neg hck]; rfl

theorem replaceChar_of_not_mem (s : List Char) (k : Char) (r : List Char)
    (h : k ∉ s) : replaceChar s k r = s := by
  unfold replaceChar
  induction s with
  | nil => rfl
  | cons c rest ih =>
    have hck : c ≠ k := fun hc => h (hc ▸ List.mem_cons_self _ _)
    rw [List.flatMap_cons, if_neg hck,
      ih fun hm => h (List.mem_cons_of_mem _ hm)]
    rfl

theorem replaceChar_key_not_mem (s : List Char) (k : Char) (r : List Char)
    (h : k ∉ r) : k ∉ replaceChar s k r := by
  intro hmem
  unfold replaceChar at hmem
  rcases List.mem_flatMap.mp hmem with ⟨d, _, hdin⟩
  by_cases hdk : d = k
  · rw [if_pos hdk] at hdin
    exact h hdin
  · rw [if_neg hdk] at hdin
    simp only [List.mem_singleton] at hdin
    exact hdk hdin.symm

theorem mem_foldl_replace (rules : List (Char × List Char))
    (acc : List Char) (c : Char)
    (hc : c ∈ rules.foldl (fun a p => replaceChar a p.1 p.2) acc) :
    c ∈ acc ∨ ∃ p ∈ rules, c ∈ p.2 := by
  induction rules generalizing acc with
  | nil => left; exact hc
  | cons p rest ih =>
    rcases ih (replaceChar acc p.1 p.2) hc with h | ⟨q, hq, hcq⟩
    · rcases mem_replaceChar acc p.1 p.2 c h with h2 | h2
      · left; exact h2
      · right; exact ⟨p, List.mem_cons_self _ _, h2⟩
    · right; exact ⟨q, List.mem_cons_of_mem _ hq, hcq⟩

theorem mem_applyReplacements (s : List Char) (c : Char)
    (hc : c ∈ applyReplacements s) :
    c ∈ s ∨ ∃ p ∈ uniReplacements, c ∈ p.2 :=
  mem_foldl_replace uniReplacements s c hc

theorem foldl_replace_fixed (rules : List (Char × List Char)) (s : List Char)
    (h : ∀ p ∈ rules, p.2 = [p.1] ∨ p.1 ∉ s) :
    rules.foldl (fun a p => replaceChar a p.1 p.2) s = s := by
  induction rules with
  | nil => rfl
  | cons p rest ih =>
    have hstep : replaceChar s p.1 p.2 = s := by
      rcases h p (List.mem_cons_self _ _) with h1 | h1
      · rw [h1]; exact replaceChar_self s p.1
      · exact replaceChar_of_not_mem s p.1 p.2 h1
    simp only [List.foldl_cons, hstep]
    exact ih fun q hq => h q (List.mem_cons_of_mem _ hq)

theorem applyReplacements_fixed (s : List Char)
    (h : ∀ p ∈ uniReplacements, p.2 = [p.1] ∨ p.1 ∉ s) :
    applyReplacements s = s :=
  foldl_replace_fixed uniReplacements s h

theorem foldl_replace_no_key (rules : List (Char × List Char))
    (acc : List Char) (k : Char)
    (htargets : ∀ p ∈ rules, k ∉ p.2)
    (hk : k ∉ acc ∨ ∃ p ∈ rules, p.1 = k ∧ k ∉ p.2) :
    k ∉ rules.foldl (fun a p => replaceChar a p.1 p.2) acc := by
  induction rules generalizing acc with
  | nil =>
    rcases hk with h | ⟨p, hp, _⟩
    · exact h
    · simp at hp
  | cons p rest ih =>
    have htrest : ∀ q ∈ rest, k ∉ q.2 :=
      fun q hq => htargets q (List.mem_cons_of_mem _ hq)
    rcases hk with h | ⟨q, hq, hq1, hq2⟩
    · refine ih (replaceChar acc p.1 p.2) htrest (Or.inl ?_)
      intro hmem
      rcases mem_replaceChar acc p.1 p.2 k hmem with h2 | h2
      · exact h h2
      · exact htargets p (List.mem_cons_self _ _) h2
    · rcases List.mem_cons.mp hq with rfl | hqr
      · refine ih (replaceChar acc q.1 q.2) htrest (Or.inl ?_)
        rw [← hq1] at hq2 ⊢
        exact replaceChar_key_not_mem acc q.1 q.2 hq2
      · exact ih (replaceChar acc p.1 p.2) htrest (Or.inr ⟨q, hqr, hq1, hq2⟩)

theorem mem_skipTag (s : List Char) (c : Char) (hc : c ∈ skipTag s) :
    c ∈ s := by
  induction s with
  | nil => simpa [skipTag] using hc
  | cons d rest ih =>
    simp only [skipTag] at hc
    by_cases hd : d = '>'
    · rw [if_pos hd] at hc
      exact List.mem_cons_of_mem _ hc
    · rw [if_neg hd] at hc
      exact List.mem_cons_of_mem _ (ih hc)

theorem mem_bleachClean (s : List Char) (c : Char) (hc : c ∈ bleachClean s) :
    c ∈ s ∨ c ∈ (['&', 'l', 't', 'g', 'a', 'm', 'p', ';'] : List Char) := by
  have H : ∀ (n : ℕ) (s : List Char), s.length = n → ∀ c, c ∈ bleachClean s →
      c ∈ s ∨ c ∈ (['&', 'l', 't', 'g', 'a', 'm', 'p', ';'] : List Char) := by
    intro n
    induction n using Nat.strong_induction_on with
    | _ n ih =>
      intro s hs c hc
      cases s with
      | nil => rw [bleachClean_nil] at hc; simp at hc
      | cons d rest =>
        by_cases hlt : d = '<'
        · subst hlt
          by_cases htag : startsTag rest = true
          · rw [bleachClean_cons_lt_tag rest htag] at hc
            have hlen : (skipTag rest).length < n := by
              have := skipTag_length_le rest
              simp only [← hs, List.length_cons]
              omega
            rcases ih _ hlen _ rfl c hc with h | h
            · left; exact List.mem_cons_of_mem _ (mem_skipTag rest c h)
            · right; exact h
          · rw [bleachClean_cons_lt_text rest (by simpa using htag)] at hc
            have hlen : rest.length < n := by
              simp only [← hs, List.length_cons]; omega
            rcases List.mem_cons.mp hc with rfl | hc2
            · right; simp
            · rcases List.mem_cons.mp hc2 with rfl | hc3
              · right; simp
              · rcases List.mem_cons.mp hc3 with rfl | hc4
                · right; simp
                · rcases List.mem_cons.mp hc4 with rfl | hc5
                  · right; simp
                  · rcases ih _ hlen _ rfl c hc5 with h | h
                    · left; exact List.mem_cons_of_mem _ h
                    · right; exact h
        · by_cases hgt : d = '>'
          · subst hgt
            rw [bleachClean_cons_gt rest] at hc
            have hlen : rest.length < n := by
              simp only [← hs, List.length_cons]; omega
            rcases List.mem_cons.mp hc with rfl | hc2
            · right; simp
            · rcases List.mem_cons.mp hc2 with rfl | hc3
              · right; simp
              · rcases List.mem_cons.mp hc3 with rfl | hc4
                · right; simp
                · rcases List.mem_cons.mp hc4 with rfl | hc5
                  · right; simp
                  · rcases ih _ hlen _ rfl c hc5 with h | h
                    · left; exact List.mem_cons_of_mem _ h
                    · right; exact h
          · by_cases hamp : d = '&'
            · subst hamp
              rcases hent : entitySpan rest with _ | ⟨name, rest2⟩
              · rw [bleachClean_cons_amp_none rest hent] at hc
                have hlen : rest.length < n := by
                  simp only [← hs, List.length_cons]; omega
                rcases List.mem_cons.mp hc with rfl | hc2
                · right; simp
                · rcases List.mem_cons.mp hc2 with rfl | hc3
                  · right; simp
                  · rcases List.mem_cons.mp hc3 with rfl | hc4
                    · right; simp
                    · rcases List.mem_cons.mp hc4 with rfl | hc5
                      · right; simp
                      · rcases List.mem_cons.mp hc5 with rfl | hc6
                        · right; simp
                        · rcases ih _ hlen _ rfl c hc6 with h | h
                          · left; exact List.mem_cons_of_mem _ h
                          · right; exact h
              · rw [bleachClean_cons_amp_ent rest name rest2 hent] at hc
                obtain ⟨_, _, hdecomp⟩ := entitySpan_spec rest name rest2 hent
                have hlen : rest2.length < n := by
                  have := entitySpan_length rest name rest2 hent
                  simp only [← hs, List.length_cons]; omega
                rcases List.mem_cons.mp hc with rfl | hc2
                · right; simp
                · rcases List.mem_append.mp hc2 with h | h
                  · left
                    refine List.mem_cons_of_mem _ ?_
                    rw [hdecomp]
                    exact List.mem_append.mpr (Or.inl h)
                  · rcases List.mem_cons.mp h with rfl | hc3
                    · right; simp
                    · rcases ih _ hlen _ rfl c hc3 with h2 | h2
                      · left
                        refine List.mem_cons_of_mem _ ?_
                        rw [hdecomp]
                        exact List.mem_append.mpr
                          (Or.inr (List.mem_cons_of_mem _ h2))
                      · right; exact h2
            · rw [bleachClean_cons_plain d rest hlt hgt hamp] at hc
              have hlen : rest.length < n := by
                simp only [← hs, List.length_cons]; omega
              rcases List.mem_cons.mp hc with rfl | hc2
              · left; exact List.mem_cons_self _ _
              · rcases ih _ hlen _ rfl c hc2 with h | h
                · left; exact List.mem_cons_of_mem _ h
                · right; exact h
  exact H s.length s rfl c hc

theorem sanitize_eq (s : List Char) (h : s.isEmpty = false) :
    sanitizeText s =
      pyStrip (collapseWS (removeBadChars (List.filter isAllowedChar
        (pyStrip (collapseWS (bleachClean (applyReplacements (nfkd s)))))))) := by
  simp only [sanitizeText, h, Bool.false_eq_true, if_false]

/-- C5: the sanitizer is idempotent, applying it twice yields the same
result as applying it once, for every input string (the external
normalization and markup-stripping library calls being modeled from
their documented behavior). -/
theorem C5_sanitize_idempotent (s : List Char) :
    sanitizeText (sanitizeText s) = sanitizeText s := by
  by_cases hs : s.isEmpty = true
  · have h1 : sanitizeText s = [] := by
      simp [sanitizeText, hs]
    rw [h1]
    simp [sanitizeText]
  · have hs2 : s.isEmpty = false := by simpa using hs
    rw [sanitize_eq s hs2]
    set q := applyReplacements (nfkd s) with hq
    set p3 := bleachClean q with hp3
    set p4 := pyStrip (collapseWS p3) with hp4
    set p5 := p4.filter isAllowedChar with hp5
    set p6 := removeBadChars p5 with hp6
    set r := pyStrip (collapseWS p6) with hrdef
    by_cases hre : r.isEmpty = true
    · have hrnil : r = [] := by
        rwa [List.isEmpty_iff] at hre
      rw [hrnil]
      simp [sanitizeText]
    · rw [sanitize_eq r (by simpa using hre)]
      -- membership chains
      have hr6 : ∀ c ∈ r, c ∈ p6 ∨ c = ' ' := by
        intro c hc
        exact mem_collapseWS p6 c (mem_pyStrip _ c hc)
      have h65 : ∀ c ∈ p6, c ∈ p5 := by
        intro c hc
        exact (List.mem_filter.mp hc).1
      have h54 : ∀ c ∈ p5, c ∈ p4 ∧ isAllowedChar c = true := by
        intro c hc
        exact ⟨(List.mem_filter.mp hc).1, (List.mem_filter.mp hc).2⟩
      have h43 : ∀ c ∈ p4, c ∈ p3 ∨ c = ' ' := by
        intro c hc
        exact mem_collapseWS p3 c (mem_pyStrip _ c hc)
      have h3q : ∀ c ∈ p3, c ∈ q ∨
          c ∈ (['&', 'l', 't', 'g', 'a', 'm', 'p', ';'] : List Char) := by
        intro c hc
        exact mem_bleachClean q c hc
      have hqn : ∀ c ∈ q, c ∈ nfkd s ∨ ∃ p ∈ uniReplacements, c ∈ p.2 := by
        intro c hc
        exact mem_applyReplacements (nfkd s) c hc
      -- every character of r is allowed
      have hallowed : ∀ c ∈ r, isAllowedChar c = true := by
        intro c hc
        rcases hr6 c hc with h | rfl
        · exact (h54 c (h65 c h)).2
        · decide
      -- every character of r is NFKD stable
      have htgt_stable : ∀ p ∈ uniReplacements, ∀ c ∈ p.2, nfkdChar c = [c] := by
        decide
      have hesc_stable : ∀ c ∈ (['&', 'l', 't', 'g', 'a', 'm', 'p', ';'] :
          List Char), nfkdChar c = [c] := by
        decide
      have hstable : ∀ c ∈ r, nfkdChar c = [c] := by
        intro c hc
        rcases hr6 c hc with h | rfl
        · rcases h43 c (h54 c (h65 c h)).1 with h2 | rfl
          · rcases h3q c h2 with h3 | h3
            · rcases hqn c h3 with h4 | ⟨p, hp, hcp⟩
              · rcases mem_nfkd s c h4 with ⟨d, _, hcd⟩
                exact nfkdChar_stable_target d c hcd
              · exact htgt_stable p hp c hcp
            · exact hesc_stable c h3
          · decide
        · decide
      -- the two interesting replacement keys never reach r
      have hcross1 : ('×' : Char) ∉ r := by
        intro hmem
        rcases hr6 '×' hmem with h | h
        · rcases h43 '×' (h54 '×' (h65 '×' h)).1 with h2 | h2
          · rcases h3q '×' h2 with h3 | h3
            · exact (foldl_replace_no_key uniReplacements (nfkd s) '×'
                (by decide) (Or.inr (by decide))) h3
            · exact absurd h3 (by decide)
          · exact absurd h2 (by decide)
        · exact absurd h (by decide)
      have hcross2 : ('÷' : Char) ∉ r := by
        intro hmem
        rcases hr6 '÷' hmem with h | h
        · rcases h43 '÷' (h54 '÷' (h65 '÷' h)).1 with h2 | h2
          · rcases h3q '÷' h2 with h3 | h3
            · exact (foldl_replace_no_key uniReplacements (nfkd s) '÷'
                (by decide) (Or.inr (by decide))) h3
            · exact absurd h3 (by decide)
          · exact absurd h2 (by decide)
        · exact absurd h (by decide)
      -- stage identities on r
      have hnfkd : nfkd r = r := nfkd_fixed r hstable
      have hrepl : applyReplacements r = r := by
        apply applyReplacements_fixed
        have hkeys : ∀ p ∈ uniReplacements, p.2 = [p.1] ∨
            isAllowedChar p.1 = false ∨ p.1 = '×' ∨ p.1 = '÷' := by
          decide
        intro p hp
        rcases hkeys p hp with h | h | h | h
        · left; exact h
        · right
          intro hmem
          rcases hr6 _ hmem with h2 | h2
          · rw [(h54 _ (h65 _ h2)).2] at h
            exact absurd h (by simp)
          · rw [h2] at h
            exact absurd h (by decide)
        · right; rw [h]; exact hcross1
        · right; rw [h]; exact hcross2
      have hgood : GoodAmp r := by
        have g3 : GoodAmp p3 := goodAmp_bleachClean q
        have g4 : GoodAmp p4 :=
          goodAmp_dropTrailingWS _ (goodAmp_dropWhileWS _ (goodAmp_collapseWS _ g3))
        have g5 : GoodAmp p5 :=
          goodAmp_filter isAllowedChar entChar_allowed (by decide) (by decide) _ g4
        have g6 : GoodAmp p6 :=
          goodAmp_filter _ entChar_not_bad (by decide) (by decide) _ g5
        exact goodAmp_dropTrailingWS _
          (goodAmp_dropWhileWS _ (goodAmp_collapseWS _ g6))
      have hbleach : bleachClean r = r := bleachClean_of_goodAmp r hgood
      have hsc : pyStrip (collapseWS r) = r := by
        rw [hrdef]
        exact stripCollapse_idem p6
      have hfilter : r.filter isAllowedChar = r :=
        List.filter_eq_self.mpr hallowed
      have hbad : removeBadChars r = r := by
        unfold removeBadChars
        apply List.filter_eq_self.mpr
        intro c hc
        have ha := hallowed c hc
        by_cases h1 : c = '�'
        · rw [h1] at ha; exact absurd ha (by decide)
        · by_cases h2 : c = '￿'
          · rw [h2] at ha; exact absurd ha (by decide)
          · simp [h1, h2]
      rw [hnfkd, hrepl, hbleach, hsc, hfilter, hbad, hsc]

end ClinicalBrief
